import Mathlib

/-!
Verification of the result-assembly core of the raft nearest-neighbor engine.

The development shallowly embeds, over `Nat` / `ℚ` / `ℝ`:

* `find_chunk_ix` — the binary-search chunk locator of
  `cpp/include/raft/neighbors/detail/ivf_common.cuh` (uint32 arithmetic is
  modelled with explicit `% 2^32`);
* `calc_chunk_indices_kernel` — the per-query inclusive prefix sum over
  probed cluster sizes from the same file;
* `postprocess_neighbors_kernel` and `kOutOfBoundsRecord` — sample-index to
  database-index resolution;
* `postprocess_distances` — metric-dependent score rescaling;
* `unravel_index_impl` / `unravel_index` from `cpp/include/raft/core/mdspan.hpp`;
* the ball-cover two-pass k-NN scan and the eps (radius) scan, whose
  implementations live outside the provided sources and are therefore
  modelled from the specification text.
-/

namespace RaftVerify

/-! ### uint32 arithmetic model -/

/-- The modulus of `uint32_t` arithmetic. -/
def U32 : ℕ := 4294967296

/-- Wrap-around `uint32_t` subtraction `a - b` for `a < U32`. -/
def sub32 (a b : ℕ) : ℕ := (a + (U32 - b % U32)) % U32

lemma sub32_eq_sub {a b : ℕ} (hba : b ≤ a) (ha : a < U32) : sub32 a b = a - b := by
  have hb : b < U32 := lt_of_le_of_lt hba ha
  have hbm : b % U32 = b := Nat.mod_eq_of_lt hb
  unfold sub32
  rw [hbm]
  have h1 : a + (U32 - b) = (a - b) + U32 := by omega
  rw [h1, Nat.add_mod_right]
  exact Nat.mod_eq_of_lt (by omega)

/-! ### The chunk locator `find_chunk_ix`

The C++ source is a do-while binary search:

```
uint32_t ix_min = 0;
uint32_t ix_max = n_probes;
do {
  uint32_t i = (ix_min + ix_max) / 2;
  if (chunk_indices[i] <= sample_ix) { ix_min = i + 1; } else { ix_max = i; }
} while (ix_min < ix_max);
if (ix_min > 0) { sample_ix -= chunk_indices[ix_min - 1]; }
return ix_min;
```

All variables are `uint32_t`, so the midpoint `(ix_min + ix_max)` wraps
modulo `2^32`.  The loop is embedded with explicit fuel (the C loop has no
built-in bound); `none` means the loop did not finish within the given number
of iterations.  Besides the final value of `ix_min`, the embedding records
every index at which `chunk_indices` is read, to reason about memory safety. -/

/-- One-to-n iterations of the do-while search. Returns the final `ix_min`
together with the list of indices read from `chunk_indices`. -/
def chunkLoop (s : ℕ) (ci : ℕ → ℕ) : ℕ → ℕ → ℕ → Option (ℕ × List ℕ)
  | 0, _, _ => none
  | fuel + 1, ix_min, ix_max =>
    let i := ((ix_min + ix_max) % U32) / 2
    if ci i ≤ s then
      if i + 1 < ix_max then
        (chunkLoop s ci fuel (i + 1) ix_max).map (fun r => (r.1, i :: r.2))
      else some (i + 1, [i])
    else
      if ix_min < i then
        (chunkLoop s ci fuel ix_min i).map (fun r => (r.1, i :: r.2))
      else some (ix_min, [i])

/-- The chunk locator: runs the binary search from `(0, n_probes)` and, on
termination, rewrites the sample offset into the offset local to the found
chunk (uint32 subtraction of the previous cumulative size).  `n_probes + 1`
iterations are enough whenever the loop terminates at all, since each
non-wrapping iteration shrinks the search interval. -/
def find_chunk_ix (sample_ix n_probes : ℕ) (ci : ℕ → ℕ) : Option (ℕ × ℕ) :=
  (chunkLoop sample_ix ci (n_probes + 1) 0 n_probes).map
    (fun r => (r.1, if 0 < r.1 then sub32 sample_ix (ci (r.1 - 1)) else sample_ix))

/-- The indices at which a `find_chunk_ix` call reads `chunk_indices`:
the reads of the search loop plus the final read `chunk_indices[ix_min - 1]`
performed when `ix_min > 0`. -/
def find_chunk_reads (sample_ix n_probes : ℕ) (ci : ℕ → ℕ) : Option (List ℕ) :=
  (chunkLoop sample_ix ci (n_probes + 1) 0 n_probes).map
    (fun r => r.2 ++ (if 0 < r.1 then [r.1 - 1] else []))

/-! ### The chunk-index builder `calc_chunk_indices_kernel`

One CUDA block processes one query.  Across the tiled `cub::BlockScan`
loop the kernel computes, in `uint32_t` arithmetic, the inclusive running
sum of `cluster_sizes[clusters_to_probe[i]]` for `i = 0 .. n_probes-1`
(padding lanes contribute `0`), writes the running sum to
`chunk_indices[i]`, and finally stores the carry `total` to
`n_samples[query]`.  The per-query semantics is this sequential scan. -/

/-- Running-sum worker: `total` is the carry accumulated so far. -/
def calcChunkAux (cluster_sizes : ℕ → ℕ) : List ℕ → ℕ → List ℕ × ℕ
  | [], total => ([], total)
  | label :: rest, total =>
    let c := (total + cluster_sizes label) % U32
    let r := calcChunkAux cluster_sizes rest c
    (c :: r.1, r.2)

/-- Per-query semantics of `calc_chunk_indices_kernel`: the written
`chunk_indices` row and the stored `n_samples` value. -/
def calc_chunk_indices_kernel (cluster_sizes : ℕ → ℕ)
    (clusters_to_probe : List ℕ) : List ℕ × ℕ :=
  calcChunkAux cluster_sizes clusters_to_probe 0

/-- The whole grid: one block (list entry) per query. -/
def calc_chunk_indices (cluster_sizes : ℕ → ℕ)
    (probes : List (List ℕ)) : List (List ℕ × ℕ) :=
  probes.map (calc_chunk_indices_kernel cluster_sizes)

/-! ### The result resolver `postprocess_neighbors_kernel` -/

/-- `kOutOfBoundsRecord = std::numeric_limits<IdxT>::max()` for an unsigned
`w`-bit identifier type. -/
def kOutOfBoundsRecord (w : ℕ) : ℕ := 2 ^ w - 1

/-- Per-slot semantics of `postprocess_neighbors_kernel`: run the chunk
locator on the raw sample index `neighbor_in`; if it terminates, write
either the database index of the located record or the out-of-bounds
sentinel, depending on `chunk_ix < n_probes`.  `none` models a thread that
never finishes because the locator loops. -/
def postprocess_neighbors_kernel (w n_probes : ℕ) (ci clusters_to_probe : ℕ → ℕ)
    (db_indices : ℕ → ℕ → ℕ) (neighbor_in : ℕ) : Option ℕ :=
  (find_chunk_ix neighbor_in n_probes ci).map
    (fun r =>
      if r.1 < n_probes then db_indices (clusters_to_probe r.1) r.2
      else kOutOfBoundsRecord w)

/-! ### The distance postprocessor `postprocess_distances`

The metric enum `raft::distance::DistanceType` is declared outside the
provided sources; its constructors are reproduced from the raft metric set.
The switch itself is the source under verification: squared-Euclidean
metrics rescale by `s*s`, square-root Euclidean metrics apply `sqrt` then
rescale by `s`, inner product rescales by `-s*s`, and any other metric hits
`RAFT_FAIL("Unexpected metric.")`, modelled as `Except.error`.  Scores are
modelled over the real numbers. -/

inductive DistanceType where
  | L2Expanded
  | L2SqrtExpanded
  | CosineExpanded
  | L1
  | L2Unexpanded
  | L2SqrtUnexpanded
  | InnerProduct
  | Linf
  | Canberra
  | LpUnexpanded
  | CorrelationExpanded
  | JaccardExpanded
  | HellingerExpanded
  | Haversine
  | BrayCurtis
  | JensenShannon
  | HammingUnexpanded
  | KLDivergence
  | RusselRaoExpanded
  | DiceExpanded
  deriving DecidableEq

/-- Elementwise score finalization over the `[n_queries, topk]` buffer,
flattened to a list. -/
noncomputable def postprocess_distances (metric : DistanceType)
    (scaling_factor : ℝ) (inp : List ℝ) : Except String (List ℝ) :=
  match metric with
  | .L2Unexpanded | .L2Expanded =>
    .ok (inp.map (fun r => r * (scaling_factor * scaling_factor)))
  | .L2SqrtUnexpanded | .L2SqrtExpanded =>
    .ok (inp.map (fun r => Real.sqrt r * scaling_factor))
  | .InnerProduct =>
    .ok (inp.map (fun r => r * (-(scaling_factor * scaling_factor))))
  | _ => .error "Unexpected metric."

/-- The metrics accepted by the switch in `postprocess_distances`. -/
def supportedMetrics : List DistanceType :=
  [.L2Unexpanded, .L2Expanded, .L2SqrtUnexpanded, .L2SqrtExpanded, .InnerProduct]

/-! ### `unravel_index` from `mdspan.hpp`

`unravel_index_impl` walks the row-major shape from the innermost dimension
outwards.  For each extent `s` it either divides (`t = idx / s;
index[dim] = idx - t * s; idx = t`) or, when `s & (s - 1) == 0` (power of
two), masks and shifts (`index[dim] = idx & (s - 1); idx >>= popc(s - 1)`).
The leftover becomes coordinate 0.  `detail::popc` is the population
count. -/

/-- Population count (`detail::popc`). -/
def popc (n : ℕ) : ℕ :=
  if h : n = 0 then 0
  else n % 2 + popc (n / 2)
decreasing_by exact Nat.div_lt_self (Nat.pos_of_ne_zero h) one_lt_two

/-- One loop iteration of `unravel_index_impl` for extent `s`: returns the
coordinate for this dimension and the updated running index. -/
def unravelStep (s idx : ℕ) : ℕ × ℕ :=
  if s &&& (s - 1) ≠ 0 then
    (idx - (idx / s) * s, idx / s)
  else
    (idx &&& (s - 1), idx >>> popc (s - 1))

/-- The general division path of the loop body, spelled out; used to state
that the bit-mask fast path computes the same thing. -/
def unravelDivStep (s idx : ℕ) : ℕ × ℕ :=
  (idx - (idx / s) * s, idx / s)

/-- The loop `for (dim = rank-1; dim > 0; dim--)`: `exts` lists the extents
of dimensions `1 .. rank-1` (dimension 0 receives the leftover).  The last
extent is processed first, exactly as in the source. -/
def unravelLoop (idx : ℕ) : List ℕ → List ℕ × ℕ
  | [] => ([], idx)
  | s :: rest =>
    let r := unravelLoop idx rest
    let st := unravelStep s r.2
    (st.1 :: r.1, st.2)

/-- `unravel_index` for a row-major shape given as the list of extents
(dimension 0 first).  Returns the coordinate tuple as a list. -/
def unravel_index (idx : ℕ) (shape : List ℕ) : List ℕ :=
  match shape with
  | [] => []
  | _ :: rest =>
    let r := unravelLoop idx rest
    r.2 :: r.1

/-- Row-major re-ravelling: `sum_d coord[d] * stride(d)` where the stride of
dimension `d` is the product of the extents after it. -/
def ravel : List ℕ → List ℕ → ℕ
  | _ :: exts, c :: cs => c * exts.prod + ravel exts cs
  | _, _ => 0

/-! ### Ball-cover scanners

`registers.cu` only instantiates `rbc_low_dim_pass_one`,
`rbc_low_dim_pass_two` and `rbc_eps_pass`; their implementations
(`registers-inl.cuh`) are not among the provided sources, so the scanners
are modelled from the specification text (§4.3, §4.4 of the spec).
Distances are rational; the distance evaluator is an external parameter. -/

/-- Modelled from the spec: a landmark partition ("ball") of the missing
ball-cover index — a landmark point, its radius, and the member list of
(global identifier, point) pairs (spec §3, §4.3). -/
structure BallPartition (α : Type) where
  landmark : α
  radius : ℚ
  members : List (ℕ × α)

/-- A candidate: (global identifier, distance to the query). -/
abbrev Cand : Type := ℕ × ℚ

/-- Total order used for top-k selection: by distance, ties broken by
identifier (making selection canonical). -/
def candLE (a b : Cand) : Prop := a.2 < b.2 ∨ (a.2 = b.2 ∧ a.1 ≤ b.1)

instance candLE.decRel : DecidableRel candLE := fun _ _ => by
  unfold candLE; infer_instance

instance candLE.total : IsTotal Cand candLE := by
  constructor
  intro a b
  rcases lt_trichotomy a.2 b.2 with h | h | h
  · exact Or.inl (Or.inl h)
  · rcases Nat.le_total a.1 b.1 with h1 | h1
    · exact Or.inl (Or.inr ⟨h, h1⟩)
    · exact Or.inr (Or.inr ⟨h.symm, h1⟩)
  · exact Or.inr (Or.inl h)

instance candLE.trans : IsTrans Cand candLE := by
  constructor
  intro a b c hab hbc
  rcases hab with h | ⟨he, hn⟩ <;> rcases hbc with h2 | ⟨he2, hn2⟩
  · exact Or.inl (h.trans h2)
  · exact Or.inl (he2 ▸ h)
  · exact Or.inl (he ▸ h2)
  · exact Or.inr ⟨he.trans he2, hn.trans hn2⟩

instance candLE.antisymm : IsAntisymm Cand candLE := by
  constructor
  intro a b hab hba
  rcases hab with h | ⟨he, hn⟩ <;> rcases hba with h2 | ⟨he2, hn2⟩
  · exact absurd h2 (asymm h)
  · exact absurd h (he2 ▸ lt_irrefl _)
  · exact absurd h2 (he ▸ lt_irrefl _)
  · exact Prod.ext (Nat.le_antisymm hn hn2) he

instance candLE.refl : IsRefl Cand candLE := ⟨fun _ => Or.inr ⟨rfl, le_refl _⟩⟩

/-- Canonical sort of a candidate buffer. -/
def sortCands (l : List Cand) : List Cand := l.insertionSort candLE

/-- The k best candidates of a buffer (external top-k selector contract). -/
def topk (k : ℕ) (l : List Cand) : List Cand := (sortCands l).take k

/-- The current k-th best distance: defined only once at least `k`
candidates exist. -/
def kthDist (k : ℕ) (l : List Cand) : Option ℚ :=
  if k = 0 ∨ l.length < k then none
  else some ((sortCands l).getD (k - 1) (0, 0)).2

/-- Candidates contributed by one partition for query `q`. -/
def candidatesOf {α : Type} (dist : α → α → ℚ) (q : α) (p : BallPartition α) :
    List Cand :=
  p.members.map (fun m => (m.1, dist q m.2))

/-- Candidates contributed by the partition at index `i` (none if out of
range). -/
def candsOfIdx {α : Type} (dist : α → α → ℚ) (q : α)
    (parts : List (BallPartition α)) (i : ℕ) : List Cand :=
  match parts[i]? with
  | some p => candidatesOf dist q p
  | none => []

/-- State of a scan: the accumulated candidate buffer and the indices of the
partitions that have been fully scanned. -/
structure ScanState where
  cands : List Cand
  scanned : List ℕ

/-- Modelled from the spec: the common scan skeleton of the missing
two-pass landmark scanner.  Walk the given partition indices in order; a
partition already fully scanned is left alone; otherwise the admissibility
test `keep` (which sees the current candidate buffer) decides whether the
partition is scanned fully — appending all its members' true distances to
the buffer — or skipped (spec §4.3). -/
def scanFold {α : Type} (dist : α → α → ℚ) (q : α)
    (parts : List (BallPartition α)) (keep : List Cand → BallPartition α → Bool)
    (st : ScanState) (idxs : List ℕ) : ScanState :=
  idxs.foldl
    (fun st i =>
      match parts[i]? with
      | none => st
      | some p =>
        if i ∈ st.scanned then st
        else if keep st.cands p then
          { cands := st.cands ++ candidatesOf dist q p, scanned := i :: st.scanned }
        else st)
    st

/-- Modelled from the spec: pass-one admissibility — skip a partition iff
its landmark-to-query distance exceeds the current k-th best distance by
more than the multiplicative slack `w` (spec §4.3 pass one). -/
def keepOne {α : Type} (dist : α → α → ℚ) (q : α) (w : ℚ) (k : ℕ)
    (cands : List Cand) (p : BallPartition α) : Bool :=
  match kthDist k cands with
  | none => true
  | some t => decide (dist q p.landmark ≤ w * t)

/-- Modelled from the spec: pass-two admissibility exactly as the spec
words it — re-scan iff `|distance(query, landmark) - partition_radius|` is
below the current k-th best distance (spec §4.3 pass two). -/
def keepTwoAbs {α : Type} (dist : α → α → ℚ) (q : α) (k : ℕ)
    (cands : List Cand) (p : BallPartition α) : Bool :=
  match kthDist k cands with
  | none => true
  | some t => decide (|dist q p.landmark - p.radius| < t)

/-- Modelled from the spec: the signed triangle-inequality lower bound
`distance(query, landmark) - partition_radius`; a partition all of whose
members are within `radius` of the landmark has no member closer to the
query than this bound. -/
def keepTwo {α : Type} (dist : α → α → ℚ) (q : α) (k : ℕ)
    (cands : List Cand) (p : BallPartition α) : Bool :=
  match kthDist k cands with
  | none => true
  | some t => decide (dist q p.landmark - p.radius < t)

/-- Modelled from the spec: `rbc_low_dim_pass_one` — scan the probe list
with slack weight `w` starting from the empty state (spec §4.3 pass one). -/
def rbc_low_dim_pass_one {α : Type} (dist : α → α → ℚ) (q : α) (w : ℚ) (k : ℕ)
    (parts : List (BallPartition α)) (probe : List ℕ) : ScanState :=
  scanFold dist q parts (keepOne dist q w k) ⟨[], []⟩ probe

/-- Modelled from the spec: `rbc_low_dim_pass_two` with the spec's
absolute-value bound — re-examine every not-yet-scanned partition whose
bound `|distance(query, landmark) - radius|` is below the current k-th best
distance, with no slack (spec §4.3 pass two, literally). -/
def rbc_low_dim_pass_two_abs {α : Type} (dist : α → α → ℚ) (q : α) (k : ℕ)
    (parts : List (BallPartition α)) (st : ScanState) : ScanState :=
  scanFold dist q parts (keepTwoAbs dist q k) st (List.range parts.length)

/-- Modelled from the spec: `rbc_low_dim_pass_two` with the signed
triangle-inequality lower bound `distance(query, landmark) - radius` (the
sound variant of the spec's pass-two test). -/
def rbc_low_dim_pass_two {α : Type} (dist : α → α → ℚ) (q : α) (k : ℕ)
    (parts : List (BallPartition α)) (st : ScanState) : ScanState :=
  scanFold dist q parts (keepTwo dist q k) st (List.range parts.length)

/-- Two-pass scanner output, spec's pass-two bound: the top-k candidate
pairs after pass two refines pass one. -/
def rbc_two_pass_abs {α : Type} (dist : α → α → ℚ) (q : α) (w : ℚ) (k : ℕ)
    (parts : List (BallPartition α)) (probe : List ℕ) : List Cand :=
  topk k (rbc_low_dim_pass_two_abs dist q k parts
    (rbc_low_dim_pass_one dist q w k parts probe)).cands

/-- Two-pass scanner output with the signed pass-two bound. -/
def rbc_two_pass {α : Type} (dist : α → α → ℚ) (q : α) (w : ℚ) (k : ℕ)
    (parts : List (BallPartition α)) (probe : List ℕ) : List Cand :=
  topk k (rbc_low_dim_pass_two dist q k parts
    (rbc_low_dim_pass_one dist q w k parts probe)).cands

/-- All candidates of the whole index. -/
def allCandidates {α : Type} (dist : α → α → ℚ) (q : α)
    (parts : List (BallPartition α)) : List Cand :=
  (parts.map (candidatesOf dist q)).flatten

/-- Brute-force k nearest neighbors over the whole index. -/
def bruteForceKnn {α : Type} (dist : α → α → ℚ) (q : α) (k : ℕ)
    (parts : List (BallPartition α)) : List Cand :=
  topk k (allCandidates dist q parts)

/-! ### The radius-query scanner `rbc_eps_pass` -/

/-- Modelled from the spec: the emission of one partition during the eps
scan — every member's true distance is evaluated and the member is emitted
iff its distance is at most `eps` (spec §4.4). -/
def scanPartitionEps {α : Type} (dist : α → α → ℚ) (q : α) (eps : ℚ)
    (p : BallPartition α) : List ℕ :=
  p.members.foldr (fun m acc => if dist q m.2 ≤ eps then m.1 :: acc else acc) []

/-- Modelled from the spec: `rbc_eps_pass` (sparse output) — a single pass
over the probe list, scanning every listed partition unconditionally and
emitting, in partition-probe order then scan-encounter order, the
identifiers whose distance is at most `eps` (spec §4.4). -/
def rbc_eps_pass {α : Type} (dist : α → α → ℚ) (q : α) (eps : ℚ)
    (probe : List (BallPartition α)) : List ℕ :=
  probe.foldl (fun acc p => acc ++ scanPartitionEps dist q eps p) []

/-- The per-query neighbor count ("degree" `vd`) of the eps scan. -/
def rbc_eps_vd {α : Type} (dist : α → α → ℚ) (q : α) (eps : ℚ)
    (probe : List (BallPartition α)) : ℕ :=
  (rbc_eps_pass dist q eps probe).length

/-- Brute force over the probed partitions: filter the concatenated member
lists by the eps threshold. -/
def bruteForceEps {α : Type} (dist : α → α → ℚ) (q : α) (eps : ℚ)
    (probe : List (BallPartition α)) : List ℕ :=
  (((probe.map (fun p => p.members)).flatten).filter
    (fun m => decide (dist q m.2 ≤ eps))).map (fun m => m.1)

/-! ## Helper lemmas for `unravel_index` -/

lemma popc_zero : popc 0 = 0 := by unfold popc; simp

lemma popc_two_mul_add_one (k : ℕ) : popc (2 * k + 1) = 1 + popc k := by
  rw [popc]
  simp [Nat.mul_add_mod, Nat.mul_add_div]

lemma popc_two_pow_sub_one (m : ℕ) : popc (2 ^ m - 1) = m := by
  induction m with
  | zero => simpa using popc_zero
  | succ m ih =>
    have h : 2 ^ (m + 1) - 1 = 2 * (2 ^ m - 1) + 1 := by
      have h1m : (1 : ℕ) ≤ 2 ^ m := Nat.one_le_two_pow
      rw [pow_succ]
      omega
    rw [h, popc_two_mul_add_one, ih]
    omega

/-- A positive number whose bitwise AND with its predecessor vanishes is a
power of two: the test `s & (s - 1)` taken by `unravel_index_impl`. -/
lemma pow_two_of_land_pred {s : ℕ} (hs : 0 < s) (h : s &&& (s - 1) = 0) :
    s = 2 ^ Nat.log 2 s := by
  set k := Nat.log 2 s with hk
  have h1 : 2 ^ k ≤ s := Nat.pow_log_le_self 2 (by omega)
  have h2 : s < 2 ^ (k + 1) := Nat.lt_pow_succ_log_self (by norm_num) s
  by_contra hne
  have h3 : 2 ^ k + 1 ≤ s := by omega
  have hp : 0 < 2 ^ k := Nat.pos_pow_of_pos k (by norm_num)
  have hds : s / 2 ^ k = 1 := by
    have hlo : 1 ≤ s / 2 ^ k := (Nat.one_le_div_iff hp).2 h1
    have hhi : s / 2 ^ k < 2 :=
      (Nat.div_lt_iff_lt_mul hp).2 (by rw [pow_succ] at h2; omega)
    omega
  have hds2 : (s - 1) / 2 ^ k = 1 := by
    have hlo : 1 ≤ (s - 1) / 2 ^ k := (Nat.one_le_div_iff hp).2 (by omega)
    have hhi : (s - 1) / 2 ^ k < 2 :=
      (Nat.div_lt_iff_lt_mul hp).2 (by rw [pow_succ] at h2; omega)
    omega
  have hb1 : s.testBit k = true := by
    rw [Nat.testBit_to_div_mod, hds]; rfl
  have hb2 : (s - 1).testBit k = true := by
    rw [Nat.testBit_to_div_mod, hds2]; rfl
  have hand : (s &&& (s - 1)).testBit k = true := by
    rw [Nat.testBit_and, hb1, hb2]; rfl
  rw [h, Nat.zero_testBit] at hand
  exact Bool.false_ne_true hand

lemma sub_div_mul_eq_mod (s idx : ℕ) : idx - idx / s * s = idx % s := by
  have h := Nat.mod_add_div idx s
  rw [Nat.mul_comm (idx / s) s]
  omega

lemma unravelDivStep_eq (s idx : ℕ) : unravelDivStep s idx = (idx % s, idx / s) := by
  unfold unravelDivStep
  rw [sub_div_mul_eq_mod]

/-- Both paths of the loop body compute the Euclidean (mod, div) pair. -/
lemma unravelStep_eq {s : ℕ} (hs : 0 < s) (idx : ℕ) :
    unravelStep s idx = (idx % s, idx / s) := by
  unfold unravelStep
  by_cases hb : s &&& (s - 1) ≠ 0
  · rw [if_pos hb, sub_div_mul_eq_mod]
  · rw [if_neg hb]
    push_neg at hb
    have hpow := pow_two_of_land_pred hs hb
    rw [hpow, Nat.and_pow_two_sub_one_eq_mod, popc_two_pow_sub_one,
      Nat.shiftRight_eq_div_pow]

lemma unravelLoop_spec (exts : List ℕ) (idx : ℕ) (hpos : ∀ s ∈ exts, 0 < s) :
    (unravelLoop idx exts).2 = idx / exts.prod ∧
    ravel exts (unravelLoop idx exts).1 = idx % exts.prod ∧
    (unravelLoop idx exts).1.length = exts.length ∧
    (∀ j, j < exts.length →
      (unravelLoop idx exts).1.getD j 0 < exts.getD j 0) := by
  induction exts with
  | nil =>
    refine ⟨by simp [unravelLoop], ?_, by simp [unravelLoop], by simp⟩
    simp [unravelLoop, ravel, Nat.mod_one]
  | cons s rest ih =>
    have hs : 0 < s := hpos s (by simp)
    have hrest : ∀ x ∈ rest, 0 < x := fun x hx => hpos x (by simp [hx])
    obtain ⟨ih2, ihr, ihl, ihb⟩ := ih hrest
    have hstep := unravelStep_eq hs ((unravelLoop idx rest).2)
    constructor
    · show (unravelStep s (unravelLoop idx rest).2).2 = _
      rw [hstep, ih2, Nat.div_div_eq_div_mul, List.prod_cons, Nat.mul_comm]
    constructor
    · show ravel (s :: rest) ((unravelStep s (unravelLoop idx rest).2).1 :: _) = _
      rw [ravel, hstep, ih2, ihr, List.prod_cons]
      rw [show s * rest.prod = rest.prod * s from Nat.mul_comm s rest.prod, Nat.mod_mul]
      ring
    constructor
    · show ((unravelStep s (unravelLoop idx rest).2).1 :: _).length = _
      simp [ihl]
    · intro j hj
      match j with
      | 0 =>
        show (unravelStep s (unravelLoop idx rest).2).1 < s
        rw [hstep]
        exact Nat.mod_lt _ hs
      | j + 1 =>
        show (unravelLoop idx rest).1.getD j 0 < rest.getD j 0
        exact ihb j (by simpa using hj)

/-- C10: for every row-major shape and linear index `idx` below the product
of the extents, `unravel_index` produces one coordinate per dimension, every
coordinate of dimension `d ≥ 1` is below its extent, the row-major
re-ravelling of the coordinates equals `idx`, and the bit-mask/shift fast
path of the loop body agrees with the general division path on every
positive extent. -/
theorem unravel_index_correct (idx : ℕ) (shape : List ℕ) (hidx : idx < shape.prod) :
    (unravel_index idx shape).length = shape.length ∧
    (∀ d, 1 ≤ d → d < shape.length →
      (unravel_index idx shape).getD d 0 < shape.getD d 0) ∧
    ravel shape (unravel_index idx shape) = idx ∧
    (∀ s j, 0 < s → unravelStep s j = unravelDivStep s j) := by
  have hpos : ∀ s ∈ shape, 0 < s := by
    intro s hs
    rcases Nat.eq_zero_or_pos s with h0 | h
    · exfalso
      have hz : shape.prod = 0 := by
        have hdvd : s ∣ shape.prod := List.dvd_prod hs
        rw [h0] at hdvd
        exact Nat.eq_zero_of_zero_dvd hdvd
      omega
    · exact h
  have hlast : ∀ s j, 0 < s → unravelStep s j = unravelDivStep s j := by
    intro s j hs
    rw [unravelStep_eq hs, unravelDivStep_eq]
  match shape with
  | [] =>
    refine ⟨rfl, by simp, ?_, hlast⟩
    have hz : idx = 0 := by simpa using hidx
    simp [unravel_index, ravel, hz]
  | e :: rest =>
    have hrest : ∀ x ∈ rest, 0 < x := fun x hx => hpos x (by simp [hx])
    obtain ⟨h2, hr, hl, hb⟩ := unravelLoop_spec rest idx hrest
    refine ⟨?_, ?_, ?_, hlast⟩
    · show ((unravelLoop idx rest).2 :: (unravelLoop idx rest).1).length = _
      simp [hl]
    · intro d hd1 hdlen
      match d with
      | j + 1 =>
        show (unravelLoop idx rest).1.getD j 0 < rest.getD j 0
        exact hb j (by simpa using hdlen)
    · show ravel (e :: rest) ((unravelLoop idx rest).2 :: (unravelLoop idx rest).1) = idx
      rw [ravel, h2, hr]
      have hdm := Nat.div_add_mod idx rest.prod
      rw [Nat.mul_comm (idx / rest.prod) rest.prod]
      omega

/-- Witness for C10 at shape `[2, 3, 4]` (a mix of a power-of-two extent
and a non-power-of-two extent) and index 17. -/
theorem unravel_index_correct_witness :
    17 < ([2, 3, 4] : List ℕ).prod ∧
    ((unravel_index 17 [2, 3, 4]).length = ([2, 3, 4] : List ℕ).length ∧
     (∀ d, 1 ≤ d → d < ([2, 3, 4] : List ℕ).length →
       (unravel_index 17 [2, 3, 4]).getD d 0 < ([2, 3, 4] : List ℕ).getD d 0) ∧
     ravel [2, 3, 4] (unravel_index 17 [2, 3, 4]) = 17 ∧
     (∀ s j, 0 < s → unravelStep s j = unravelDivStep s j)) :=
  ⟨by decide, unravel_index_correct 17 [2, 3, 4] (by decide)⟩

/-! ## The distance postprocessor: claims C7 and C8 -/

/-- C7: the distance postprocessor rescales raw scores by `s * s` for the
squared-Euclidean metrics, applies the square root and rescales by `s` for
the Euclidean metrics, and rescales by `-(s * s)` for inner product; in
particular squared-Euclidean at scale 2 maps raw 9 to 36, Euclidean at
scale 1 maps raw 16 to 4, and inner product at scale 1 maps raw 5 to -5. -/
theorem postprocess_distances_metric_transforms :
    (∀ (s : ℝ) (xs : List ℝ),
      postprocess_distances .L2Expanded s xs = .ok (xs.map (fun r => r * (s * s))) ∧
      postprocess_distances .L2Unexpanded s xs = .ok (xs.map (fun r => r * (s * s))) ∧
      postprocess_distances .L2SqrtExpanded s xs = .ok (xs.map (fun r => Real.sqrt r * s)) ∧
      postprocess_distances .L2SqrtUnexpanded s xs = .ok (xs.map (fun r => Real.sqrt r * s)) ∧
      postprocess_distances .InnerProduct s xs = .ok (xs.map (fun r => r * (-(s * s))))) ∧
    postprocess_distances .L2Expanded 2 [9] = .ok [36] ∧
    postprocess_distances .L2SqrtExpanded 1 [16] = .ok [4] ∧
    postprocess_distances .InnerProduct 1 [5] = .ok [-5] := by
  have h16 : Real.sqrt 16 = 4 := by
    rw [show (16 : ℝ) = 4 ^ 2 by norm_num]
    exact Real.sqrt_sq (by norm_num)
  refine ⟨fun s xs => ⟨rfl, rfl, rfl, rfl, rfl⟩, ?_, ?_, ?_⟩
  · norm_num [postprocess_distances]
  · norm_num [postprocess_distances, h16]
  · norm_num [postprocess_distances]

/-- C8: every metric outside the three supported families makes the
postprocessor fail with the fatal "Unexpected metric." configuration error,
and no output list is ever produced for it. -/
theorem postprocess_distances_rejects_unknown (metric : DistanceType) (s : ℝ)
    (xs : List ℝ) (hm : metric ∉ supportedMetrics) :
    postprocess_distances metric s xs = .error "Unexpected metric." ∧
    ∀ out, postprocess_distances metric s xs ≠ .ok out := by
  cases metric <;> simp [supportedMetrics] at hm ⊢ <;> simp [postprocess_distances]

/-- Witness for C8 at the unsupported metric `L1`. -/
theorem postprocess_distances_rejects_unknown_witness :
    DistanceType.L1 ∉ supportedMetrics ∧
    (postprocess_distances .L1 1 [2] = .error "Unexpected metric." ∧
     ∀ out, postprocess_distances .L1 1 [2] ≠ .ok out) :=
  ⟨by decide, postprocess_distances_rejects_unknown .L1 1 [2] (by decide)⟩

end RaftVerify

namespace RaftVerify

lemma chunkLoop_sound (s n : ℕ) (ci : ℕ → ℕ)
    (hmono : ∀ a b, a ≤ b → b < n → ci a ≤ ci b) (hn31 : n ≤ 2 ^ 31) :
    ∀ fuel mn mx, mn < mx → mx ≤ n → mx - mn ≤ fuel →
    (∀ j, j < mn → ci j ≤ s) → (∀ j, mx ≤ j → j < n → s < ci j) →
    ∃ c rs, chunkLoop s ci fuel mn mx = some (c, rs) ∧ c ≤ mx ∧
      (∀ j, j < c → ci j ≤ s) ∧ (∀ j, c ≤ j → j < n → s < ci j) ∧
      (∀ r ∈ rs, r < mx) := by
  have h31 : (2 : ℕ) ^ 31 = 2147483648 := by norm_num
  intro fuel
  induction fuel with
  | zero =>
    intro mn mx hlt _ hfuel _ _
    omega
  | succ fuel ih =>
    intro mn mx hlt hle hfuel hinvL hinvR
    have hmid : (mn + mx) % U32 = mn + mx := by
      apply Nat.mod_eq_of_lt
      unfold U32
      omega
    have hi : ((mn + mx) % U32) / 2 = (mn + mx) / 2 := by rw [hmid]
    set i := (mn + mx) / 2 with hidef
    have hilo : mn ≤ i := by omega
    have hihi : i < mx := by omega
    have hin : i < n := by omega
    simp only [chunkLoop, hi]
    by_cases hci : ci i ≤ s
    · rw [if_pos hci]
      have hinvL2 : ∀ j, j < i + 1 → ci j ≤ s := by
        intro j hj
        exact le_trans (hmono j i (by omega) hin) hci
      by_cases hc : i + 1 < mx
      · rw [if_pos hc]
        obtain ⟨c, rs, heq, hcle, hL, hR, hrd⟩ :=
          ih (i + 1) mx hc hle (by omega) hinvL2 hinvR
        refine ⟨c, i :: rs, ?_, hcle, hL, hR, ?_⟩
        · rw [heq]; rfl
        · intro r hr
          rcases List.mem_cons.1 hr with h | h
          · omega
          · exact hrd r h
      · rw [if_neg hc]
        have hmx : i + 1 = mx := by omega
        refine ⟨i + 1, [i], rfl, by omega, hinvL2, ?_, ?_⟩
        · intro j hj hjn
          exact hinvR j (by omega) hjn
        · intro r hr
          simp at hr
          omega
    · rw [if_neg hci]
      have hinvR2 : ∀ j, i ≤ j → j < n → s < ci j := by
        intro j hj hjn
        exact lt_of_lt_of_le (by omega) (hmono i j hj hjn)
      by_cases hc : mn < i
      · rw [if_pos hc]
        obtain ⟨c, rs, heq, hcle, hL, hR, hrd⟩ :=
          ih mn i hc (by omega) (by omega) hinvL hinvR2
        refine ⟨c, i :: rs, ?_, by omega, hL, hR, ?_⟩
        · rw [heq]; rfl
        · intro r hr
          rcases List.mem_cons.1 hr with h | h
          · omega
          · exact lt_trans (hrd r h) hihi
      · rw [if_neg hc]
        have hmn : i = mn := by omega
        refine ⟨mn, [i], rfl, by omega, hinvL, ?_, ?_⟩
        · intro j hj hjn
          exact hinvR2 j (by omega) hjn
        · intro r hr
          simp at hr
          omega

end RaftVerify

namespace RaftVerify

lemma sum_take_mono (l : List ℕ) {a b : ℕ} (hab : a ≤ b) :
    (l.take a).sum ≤ (l.take b).sum := by
  have h : b = a + (b - a) := by omega
  rw [h, List.take_add, List.sum_append]
  omega

lemma sum_take_succ_eq (l : List ℕ) {c : ℕ} (hc : c < l.length) :
    (l.take (c + 1)).sum = (l.take c).sum + l.getD c 0 := by
  rw [List.take_add, List.sum_append]
  have hd : l.drop c = l.getD c 0 :: l.drop (c + 1) := by
    rw [List.getD_eq_getElem l 0 hc]
    exact List.drop_eq_getElem_cons hc
  rw [hd]
  simp

/-- C1 (amended): on a non-empty probe list of at most `2^31` entries whose
chunk-index table holds the inclusive prefix sums of the probed cluster
sizes (a total that fits `uint32_t`), `find_chunk_ix` at any flat offset
`s` below the total returns the smallest chunk index whose table entry
exceeds `s`, together with the in-chunk offset: the local offset is below
the chunk's size and re-adding the sizes of the preceding chunks gives back
`s`. -/
theorem find_chunk_ix_locates (s : ℕ) (sizes : List ℕ) (ci : ℕ → ℕ)
    (h1 : 1 ≤ sizes.length) (h31 : sizes.length ≤ 2 ^ 31)
    (hci : ∀ i, i < sizes.length → ci i = (sizes.take (i + 1)).sum)
    (htot : sizes.sum < U32) (hs : s < sizes.sum) :
    ∃ c loc, find_chunk_ix s sizes.length ci = some (c, loc) ∧
      c < sizes.length ∧ s < ci c ∧ (∀ j, j < c → ci j ≤ s) ∧
      loc = s - (if c = 0 then 0 else ci (c - 1)) ∧
      loc < sizes.getD c 0 ∧
      (sizes.take c).sum + loc = s := by
  set n := sizes.length with hn
  have hmono : ∀ a b, a ≤ b → b < n → ci a ≤ ci b := by
    intro a b hab hbn
    rw [hci a (by omega), hci b hbn]
    exact sum_take_mono sizes (by omega)
  obtain ⟨c, rs, heq, hcle, hL, hR, hrd⟩ :=
    chunkLoop_sound s n ci hmono h31 (n + 1) 0 n (by omega) (le_refl n)
      (by omega) (by omega) (by omega)
  have hcn : c < n := by
    rcases Nat.lt_or_ge c n with h | h
    · exact h
    · exfalso
      have hlast : ci (n - 1) ≤ s := hL (n - 1) (by omega)
      rw [hci (n - 1) (by omega)] at hlast
      have : n - 1 + 1 = n := by omega
      rw [this, hn, List.take_length] at hlast
      omega
  have hsc : s < ci c := hR c (le_refl c) hcn
  have hciv : ∀ i, i < n → ci i < U32 := by
    intro i hi
    rw [hci i hi]
    have hle2 : (sizes.take (i + 1)).sum ≤ (sizes.take sizes.length).sum :=
      sum_take_mono sizes (by omega)
    rw [List.take_length] at hle2
    omega
  have hsU : s < U32 := by omega
  refine ⟨c, (if 0 < c then sub32 s (ci (c - 1)) else s), ?_, hcn, hsc, hL, ?_, ?_, ?_⟩
  · unfold find_chunk_ix
    rw [heq]
    rfl
  · by_cases hc0 : 0 < c
    · rw [if_pos hc0, if_neg (by omega : ¬ c = 0)]
      exact sub32_eq_sub (hL (c - 1) (by omega)) hsU
    · rw [if_neg hc0, if_pos (by omega : c = 0)]
      omega
  · have hle : (if 0 < c then sub32 s (ci (c - 1)) else s) = s - (sizes.take c).sum := by
      by_cases hc0 : 0 < c
      · rw [if_pos hc0, sub32_eq_sub (hL (c - 1) (by omega)) hsU,
          hci (c - 1) (by omega)]
        have : c - 1 + 1 = c := by omega
        rw [this]
      · rw [if_neg hc0]
        have : c = 0 := by omega
        simp [this]
    rw [hle]
    have h2 : s < (sizes.take c).sum + sizes.getD c 0 := by
      have := hsc
      rw [hci c hcn, sum_take_succ_eq sizes hcn] at this
      exact this
    have h3 : (sizes.take c).sum ≤ s := by
      by_cases hc0 : 0 < c
      · have := hL (c - 1) (by omega)
        rw [hci (c - 1) (by omega)] at this
        have he : c - 1 + 1 = c := by omega
        rw [he] at this
        exact this
      · have : c = 0 := by omega
        simp [this]
    omega
  · have h3 : (sizes.take c).sum ≤ s := by
      by_cases hc0 : 0 < c
      · have := hL (c - 1) (by omega)
        rw [hci (c - 1) (by omega)] at this
        have he : c - 1 + 1 = c := by omega
        rw [he] at this
        exact this
      · have : c = 0 := by omega
        simp [this]
    have hle : (if 0 < c then sub32 s (ci (c - 1)) else s) = s - (sizes.take c).sum := by
      by_cases hc0 : 0 < c
      · rw [if_pos hc0, sub32_eq_sub (hL (c - 1) (by omega)) hsU,
          hci (c - 1) (by omega)]
        have : c - 1 + 1 = c := by omega
        rw [this]
      · rw [if_neg hc0]
        have : c = 0 := by omega
        simp [this]
    rw [hle]
    omega

end RaftVerify

namespace RaftVerify

/-- C4 (amended): when the flat offset is at least the total probed size,
the locator terminates normally and returns `c = n_probes`. -/
theorem find_chunk_ix_not_found (s : ℕ) (sizes : List ℕ) (ci : ℕ → ℕ)
    (h1 : 1 ≤ sizes.length) (h31 : sizes.length ≤ 2 ^ 31)
    (hci : ∀ i, i < sizes.length → ci i = (sizes.take (i + 1)).sum)
    (hs : sizes.sum ≤ s) :
    ∃ loc, find_chunk_ix s sizes.length ci = some (sizes.length, loc) := by
  set n := sizes.length with hn
  have hmono : ∀ a b, a ≤ b → b < n → ci a ≤ ci b := by
    intro a b hab hbn
    rw [hci a (by omega), hci b hbn]
    exact sum_take_mono sizes (by omega)
  obtain ⟨c, rs, heq, hcle, hL, hR, hrd⟩ :=
    chunkLoop_sound s n ci hmono h31 (n + 1) 0 n (by omega) (le_refl n)
      (by omega) (by omega) (by omega)
  have hub : ∀ j, j < n → ci j ≤ s := by
    intro j hj
    rw [hci j hj]
    have hle2 : (sizes.take (j + 1)).sum ≤ (sizes.take sizes.length).sum :=
      sum_take_mono sizes (by omega)
    rw [List.take_length] at hle2
    omega
  have hcn : c = n := by
    rcases Nat.lt_or_ge c n with h | h
    · exact absurd (hR c (le_refl c) h) (by have := hub c h; omega)
    · omega
  refine ⟨(if 0 < c then sub32 s (ci (c - 1)) else s), ?_⟩
  unfold find_chunk_ix
  rw [heq, hcn]
  rfl

lemma chunkLoop_term (s : ℕ) (ci : ℕ → ℕ) :
    ∀ fuel mn mx, mn < mx → mx ≤ 2 ^ 31 → mx - mn ≤ fuel →
    ∃ c rs, chunkLoop s ci fuel mn mx = some (c, rs) ∧ c ≤ mx ∧ ∀ r ∈ rs, r < mx := by
  intro fuel
  induction fuel with
  | zero =>
    intro mn mx hlt _ hfuel
    omega
  | succ fuel ih =>
    intro mn mx hlt h31 hfuel
    have hmid : (mn + mx) % U32 = mn + mx := by
      apply Nat.mod_eq_of_lt
      have h2 : (2 : ℕ) ^ 31 = 2147483648 := by norm_num
      unfold U32
      omega
    have hi : ((mn + mx) % U32) / 2 = (mn + mx) / 2 := by rw [hmid]
    set i := (mn + mx) / 2 with hidef
    have hilo : mn ≤ i := by omega
    have hihi : i < mx := by omega
    simp only [chunkLoop, hi]
    by_cases hci : ci i ≤ s
    · rw [if_pos hci]
      by_cases hc : i + 1 < mx
      · rw [if_pos hc]
        obtain ⟨c, rs, heq, hcle, hrd⟩ := ih (i + 1) mx hc h31 (by omega)
        refine ⟨c, i :: rs, ?_, hcle, ?_⟩
        · rw [heq]; rfl
        · intro r hr
          rcases List.mem_cons.1 hr with h | h
          · omega
          · exact hrd r h
      · rw [if_neg hc]
        refine ⟨i + 1, [i], rfl, by omega, ?_⟩
        intro r hr
        simp at hr
        omega
    · rw [if_neg hci]
      by_cases hc : mn < i
      · rw [if_pos hc]
        obtain ⟨c, rs, heq, hcle, hrd⟩ := ih mn i hc (by omega) (by omega)
        refine ⟨c, i :: rs, ?_, by omega, ?_⟩
        · rw [heq]; rfl
        · intro r hr
          rcases List.mem_cons.1 hr with h | h
          · omega
          · exact lt_trans (hrd r h) hihi
      · rw [if_neg hc]
        refine ⟨mn, [i], rfl, by omega, ?_⟩
        intro r hr
        simp at hr
        omega

/-- C9 (amended): for `1 ≤ n_probes ≤ 2^31` the binary search terminates
and every `chunk_indices` read (loop reads and the final subtraction read)
uses an index below `n_probes`; the do-while body runs at least once, so a
call with `n_probes = 0` still reads `chunk_indices[0]`. -/
theorem find_chunk_ix_safety (s n : ℕ) (ci : ℕ → ℕ)
    (h1 : 1 ≤ n) (h31 : n ≤ 2 ^ 31) :
    (∃ rs, find_chunk_reads s n ci = some rs ∧ ∀ r ∈ rs, r < n) ∧
    (∀ s2 ci2, ∃ rs2, find_chunk_reads s2 0 ci2 = some rs2 ∧ 0 ∈ rs2) := by
  constructor
  · obtain ⟨c, rs, heq, hcle, hrd⟩ :=
      chunkLoop_term s ci (n + 1) 0 n (by omega) h31 (by omega)
    refine ⟨rs ++ (if 0 < c then [c - 1] else []), ?_, ?_⟩
    · unfold find_chunk_reads
      rw [heq]
      rfl
    · intro r hr
      rcases List.mem_append.1 hr with h | h
      · exact hrd r h
      · by_cases hc : 0 < c
        · rw [if_pos hc] at h
          simp at h
          omega
        · rw [if_neg hc] at h
          simp at h
  · intro s2 ci2
    unfold find_chunk_reads chunkLoop
    by_cases h : ci2 ((0 + 0) % U32 / 2) ≤ s2
    · rw [if_pos h]
      norm_num
    · rw [if_neg h]
      norm_num

/-- Any terminating run of the search loop started on a non-empty interval
ends with `ix_min` at most the initial `ix_max`. -/
lemma chunkLoop_le (s : ℕ) (ci : ℕ → ℕ) :
    ∀ fuel mn mx c rs, mn < mx → chunkLoop s ci fuel mn mx = some (c, rs) → c ≤ mx := by
  intro fuel
  induction fuel with
  | zero =>
    intro mn mx c rs _ heq
    exact absurd heq (by simp [chunkLoop])
  | succ fuel ih =>
    intro mn mx c rs hlt heq
    have hile : ((mn + mx) % U32) / 2 ≤ (mn + mx) / 2 :=
      Nat.div_le_div_right (Nat.mod_le _ _)
    set i := ((mn + mx) % U32) / 2 with hidef
    have hihi : i < mx := by omega
    simp only [chunkLoop] at heq
    by_cases hci : ci i ≤ s
    · rw [if_pos hci] at heq
      by_cases hc : i + 1 < mx
      · rw [if_pos hc] at heq
        rcases hrec : chunkLoop s ci fuel (i + 1) mx with _ | r
        · rw [hrec] at heq
          exact absurd heq (by simp)
        · rw [hrec] at heq
          simp at heq
          have := ih (i + 1) mx r.1 r.2 hc (by rw [hrec])
          omega
      · rw [if_neg hc] at heq
        simp at heq
        omega
    · rw [if_neg hci] at heq
      by_cases hc : mn < i
      · rw [if_pos hc] at heq
        rcases hrec : chunkLoop s ci fuel mn i with _ | r
        · rw [hrec] at heq
          exact absurd heq (by simp)
        · rw [hrec] at heq
          simp at heq
          have := ih mn i r.1 r.2 hc (by rw [hrec])
          omega
      · rw [if_neg hc] at heq
        simp at heq
        omega

end RaftVerify

namespace RaftVerify

/-- C3 (amended to non-empty probe lists): whenever the locator returns
`(c, loc)` for a slot's raw sample index, the resolver writes the
out-of-bounds sentinel exactly when `c` equals the probe-list length, and
otherwise writes the member-identifier entry of probed cluster `c` at the
local offset; the sentinel is the largest value representable in the
`w`-bit identifier type. -/
theorem postprocess_neighbors_resolves (w n s : ℕ) (ci ctp : ℕ → ℕ)
    (db : ℕ → ℕ → ℕ) (c loc : ℕ) (h1 : 1 ≤ n)
    (hfind : find_chunk_ix s n ci = some (c, loc)) :
    (c = n → postprocess_neighbors_kernel w n ci ctp db s = some (kOutOfBoundsRecord w)) ∧
    (c ≠ n → postprocess_neighbors_kernel w n ci ctp db s = some (db (ctp c) loc)) ∧
    kOutOfBoundsRecord w = 2 ^ w - 1 ∧
    (∀ v, v < 2 ^ w → v ≤ kOutOfBoundsRecord w) := by
  unfold find_chunk_ix at hfind
  rcases hrec : chunkLoop s ci (n + 1) 0 n with _ | r
  · rw [hrec] at hfind
    exact absurd hfind (by simp)
  · rw [hrec] at hfind
    simp only [Option.map_some'] at hfind
    have hpair := Option.some.inj hfind
    have hc : r.1 = c := congrArg Prod.fst hpair
    have hloc : (if 0 < r.1 then sub32 s (ci (r.1 - 1)) else s) = loc :=
      congrArg Prod.snd hpair
    have hcle : c ≤ n := by
      rw [← hc]
      exact chunkLoop_le s ci (n + 1) 0 n r.1 r.2 (by omega) (by rw [hrec])
    have hpost : postprocess_neighbors_kernel w n ci ctp db s =
        some (if c < n then db (ctp c) loc else kOutOfBoundsRecord w) := by
      unfold postprocess_neighbors_kernel find_chunk_ix
      rw [hrec]
      simp only [Option.map_some']
      rw [hloc, hc]
    refine ⟨?_, ?_, rfl, ?_⟩
    · intro hcn
      rw [hpost, if_neg (by omega)]
    · intro hcn
      rw [hpost, if_pos (by omega)]
    · intro v hv
      unfold kOutOfBoundsRecord
      omega

/-- Witness for C3 at `n_probes = 1`, a table entry larger than the offset
(the locator finds chunk 0). -/
theorem postprocess_neighbors_resolves_witness :
    (1 ≤ 1 ∧ find_chunk_ix 0 1 (fun _ => 5) = some (0, 0)) ∧
    ((0 = 1 → postprocess_neighbors_kernel 8 1 (fun _ => 5) (fun c => c) (fun _ _ => 7) 0 =
        some (kOutOfBoundsRecord 8)) ∧
     (0 ≠ 1 → postprocess_neighbors_kernel 8 1 (fun _ => 5) (fun c => c) (fun _ _ => 7) 0 =
        some ((fun _ _ => 7) ((fun c => c) 0) 0)) ∧
     kOutOfBoundsRecord 8 = 2 ^ 8 - 1 ∧
     (∀ v, v < 2 ^ 8 → v ≤ kOutOfBoundsRecord 8)) :=
  ⟨⟨by decide, by decide⟩,
   postprocess_neighbors_resolves 8 1 0 (fun _ => 5) (fun c => c) (fun _ _ => 7) 0 0
     (by decide) (by decide)⟩

/-- A constant-zero chunk-index table (the prefix sums of all-zero cluster
sizes). -/
def ciZero : ℕ → ℕ := fun _ => 0

/-- C3 counterexample: with an empty probe list the kernel still runs the
locator, which reads `chunk_indices[0]` (out of bounds; the value read is
arbitrary memory, here modelled as 0) and returns chunk index 1 ≠ 0; the
kernel nevertheless writes the sentinel, not the member entry of
partition 1 that the claim prescribes for `c ≠ P`. -/
theorem postprocess_neighbors_empty_probe_counterexample :
    find_chunk_ix 0 0 ciZero = some (1, 0) ∧
    (1 : ℕ) ≠ 0 ∧
    postprocess_neighbors_kernel 8 0 ciZero (fun c => c) (fun _ _ => 7) 0 =
      some (kOutOfBoundsRecord 8) ∧
    kOutOfBoundsRecord 8 ≠ (fun _ _ => 7) ((fun c => c) 1) 0 := by
  refine ⟨by decide, by decide, by decide, by decide⟩

end RaftVerify

namespace RaftVerify

/-- Concrete chunk-index table: the prefix sums of sizes `[3, 5, 2]`. -/
def ciEx : ℕ → ℕ := fun i => [3, 8, 10].getD i 0

/-- Witness for C1 at sizes `[3, 5, 2]` and flat offset 4 (chunk 1,
local offset 1). -/
theorem find_chunk_ix_locates_witness :
    (1 ≤ ([3, 5, 2] : List ℕ).length ∧ ([3, 5, 2] : List ℕ).length ≤ 2 ^ 31 ∧
     (∀ i, i < ([3, 5, 2] : List ℕ).length →
       ciEx i = (([3, 5, 2] : List ℕ).take (i + 1)).sum) ∧
     ([3, 5, 2] : List ℕ).sum < U32 ∧ 4 < ([3, 5, 2] : List ℕ).sum) ∧
    (∃ c loc, find_chunk_ix 4 ([3, 5, 2] : List ℕ).length ciEx = some (c, loc) ∧
      c < ([3, 5, 2] : List ℕ).length ∧ 4 < ciEx c ∧ (∀ j, j < c → ciEx j ≤ 4) ∧
      loc = 4 - (if c = 0 then 0 else ciEx (c - 1)) ∧
      loc < ([3, 5, 2] : List ℕ).getD c 0 ∧
      (([3, 5, 2] : List ℕ).take c).sum + loc = 4) :=
  ⟨⟨by decide, by decide, by decide, by decide, by decide⟩,
   find_chunk_ix_locates 4 [3, 5, 2] ciEx (by decide) (by decide) (by decide)
     (by decide) (by decide)⟩

/-- Witness for C4 at sizes `[3, 5, 2]` and flat offset 12 ≥ 10. -/
theorem find_chunk_ix_not_found_witness :
    (1 ≤ ([3, 5, 2] : List ℕ).length ∧ ([3, 5, 2] : List ℕ).length ≤ 2 ^ 31 ∧
     (∀ i, i < ([3, 5, 2] : List ℕ).length →
       ciEx i = (([3, 5, 2] : List ℕ).take (i + 1)).sum) ∧
     ([3, 5, 2] : List ℕ).sum ≤ 12) ∧
    (∃ loc, find_chunk_ix 12 ([3, 5, 2] : List ℕ).length ciEx =
      some (([3, 5, 2] : List ℕ).length, loc)) :=
  ⟨⟨by decide, by decide, by decide, by decide⟩,
   find_chunk_ix_not_found 12 [3, 5, 2] ciEx (by decide) (by decide) (by decide)
     (by decide)⟩

/-- Witness for C9 at `n_probes = 2`. -/
theorem find_chunk_ix_safety_witness :
    (1 ≤ 2 ∧ 2 ≤ 2 ^ 31) ∧
    ((∃ rs, find_chunk_reads 5 2 (fun _ => 7) = some rs ∧ ∀ r ∈ rs, r < 2) ∧
     (∀ s2 ci2, ∃ rs2, find_chunk_reads s2 0 ci2 = some rs2 ∧ 0 ∈ rs2)) :=
  ⟨⟨by decide, by decide⟩, find_chunk_ix_safety 5 2 (fun _ => 7) (by decide) (by decide)⟩

/-! ### Non-termination of the uint32 binary search for huge `n_probes`

When `n_probes = 2^32 - 2` and every visited table entry is at most the
offset, the midpoint computation `(ix_min + ix_max) / 2` overflows
`uint32_t` once `ix_min ≥ 2`: `ix_min` then jumps along the cycle
`1 → 2^31 → 2^30 → … → 2 → 1` and never reaches `ix_max`, so the do-while
loop never exits.  `inS` is a superset of the states reachable from
`ix_min = 0` that is closed under the loop step. -/

def inS (m : ℕ) : Prop := m ≤ 2 ∨ ∃ j, 1 ≤ j ∧ j ≤ 31 ∧ m = 2 ^ j

lemma cycle_step {m : ℕ} (hm : inS m) :
    ((m + (U32 - 2)) % U32) / 2 < 2 ^ 31 ∧
    ((m + (U32 - 2)) % U32) / 2 + 1 < U32 - 2 ∧
    inS (((m + (U32 - 2)) % U32) / 2 + 1) := by
  rcases hm with hle | ⟨j, hj1, hj31, rfl⟩
  · interval_cases m
    · refine ⟨by norm_num [U32], by norm_num [U32], ?_⟩
      right
      exact ⟨31, by norm_num, by norm_num, by norm_num [U32]⟩
    · refine ⟨by norm_num [U32], by norm_num [U32], ?_⟩
      right
      exact ⟨31, by norm_num, by norm_num, by norm_num [U32]⟩
    · refine ⟨by norm_num [U32], by norm_num [U32], ?_⟩
      left
      norm_num [U32]
  · have hple : (2 : ℕ) ^ j ≤ 2 ^ 31 := Nat.pow_le_pow_right (by norm_num) hj31
    have h2le : (2 : ℕ) ≤ 2 ^ j := by
      calc (2 : ℕ) = 2 ^ 1 := by norm_num
        _ ≤ 2 ^ j := Nat.pow_le_pow_right (by norm_num) hj1
    have h31n : (2 : ℕ) ^ 31 = 2147483648 := by norm_num
    have hmod : (2 ^ j + (U32 - 2)) % U32 = 2 ^ j - 2 := by
      have he : 2 ^ j + (U32 - 2) = (2 ^ j - 2) + U32 := by
        unfold U32 at *
        omega
      rw [he, Nat.add_mod_right]
      apply Nat.mod_eq_of_lt
      unfold U32 at *
      omega
    rw [hmod]
    have hpow : (2 : ℕ) ^ j = 2 * 2 ^ (j - 1) := by
      conv_lhs => rw [show j = 1 + (j - 1) by omega]
      rw [pow_add]
      ring
    have hdiv : (2 ^ j - 2) / 2 = 2 ^ (j - 1) - 1 := by
      rw [hpow]
      omega
    rw [hdiv]
    have hp1 : (1 : ℕ) ≤ 2 ^ (j - 1) := Nat.one_le_two_pow
    have hp30 : (2 : ℕ) ^ (j - 1) ≤ 2 ^ 30 := Nat.pow_le_pow_right (by norm_num) (by omega)
    have h30n : (2 : ℕ) ^ 30 = 1073741824 := by norm_num
    refine ⟨by omega, by unfold U32; omega, ?_⟩
    have he : 2 ^ (j - 1) - 1 + 1 = 2 ^ (j - 1) := by omega
    rw [he]
    rcases Nat.eq_or_lt_of_le hj1 with he1 | h1lt
    · left
      rw [← he1]
      norm_num
    · right
      exact ⟨j - 1, by omega, by omega, rfl⟩

/-- With `ix_max = 2^32 - 2` and every entry below index `2^31` at most the
offset, the search loop returns `none` for every fuel from every state in
the cycle set: the C loop runs forever. -/
lemma chunkLoop_diverges (s : ℕ) (ci : ℕ → ℕ) (hci : ∀ i, i < 2 ^ 31 → ci i ≤ s) :
    ∀ fuel m, inS m → chunkLoop s ci fuel m (U32 - 2) = none := by
  intro fuel
  induction fuel with
  | zero =>
    intro m _
    rfl
  | succ fuel ih =>
    intro m hm
    obtain ⟨hi31, hilt, hstep⟩ := cycle_step hm
    simp only [chunkLoop]
    rw [if_pos (hci _ hi31), if_pos hilt, ih _ hstep]
    rfl

end RaftVerify

namespace RaftVerify

/-- The chunk-index table of `sizesStep`: zero until the last probe, whose
cluster holds 5 records. -/
def ciStep : ℕ → ℕ := fun i => if i < U32 - 3 then 0 else 5

/-- All-zero cluster sizes except the very last probed cluster, of size 5:
a well-formed size assignment for a probe list of length `2^32 - 2`. -/
def szStep : ℕ → ℕ := fun i => if i = U32 - 3 then 5 else 0

/-- `ciStep` really is the inclusive prefix-sum table of the sizes
`szStep` over a probe list of length `2^32 - 2`, with total 5; so the
non-termination counterexample's inputs satisfy the chunk locator's
documented precondition (table of prefix sums, offset below the total). -/
lemma ciStep_prefix_sums :
    (∀ i, i < U32 - 2 → ciStep i = ∑ j ∈ Finset.range (i + 1), szStep j) ∧
    (∑ j ∈ Finset.range (U32 - 2), szStep j = 5) := by
  have hone : ∀ i, i < U32 - 2 → U32 - 3 ≤ i →
      ∑ j ∈ Finset.range (i + 1), szStep j = 5 := by
    intro i hi hge
    rw [Finset.sum_eq_single_of_mem (U32 - 3) (Finset.mem_range.2 (by omega))]
    · unfold szStep
      rw [if_pos rfl]
    · intro b _ hb
      unfold szStep
      rw [if_neg hb]
  constructor
  · intro i hi
    unfold ciStep
    by_cases hcase : i < U32 - 3
    · rw [if_pos hcase]
      rw [Finset.sum_eq_zero]
      intro j hj
      unfold szStep
      rw [if_neg (by simp at hj; omega)]
    · rw [if_neg hcase]
      rw [hone i hi (by omega)]
  · have := hone (U32 - 3) (by unfold U32; omega) (le_refl _)
    have he : U32 - 3 + 1 = U32 - 2 := by unfold U32; omega
    rw [he] at this
    exact this

/-- C1 counterexample: with `n_probes = 2^32 - 2`, the prefix-sum table
`ciStep` of `sizesStep` and flat offset `3 < 5 =` total, the uint32
midpoint overflow makes the do-while loop cycle forever: the locator never
returns. -/
theorem find_chunk_ix_c1_nontermination :
    find_chunk_ix 3 (U32 - 2) ciStep = none := by
  unfold find_chunk_ix
  rw [chunkLoop_diverges 3 ciStep ?hbound ((U32 - 2) + 1) 0 (Or.inl (by norm_num))]
  · rfl
  case hbound =>
    intro i hi
    unfold ciStep
    rw [if_pos (by unfold U32 at *; norm_num at hi ⊢; omega)]
    omega

/-- C4 counterexample: with `n_probes = 2^32 - 2`, the all-zero table (all
probed clusters empty, total 0) and offset `0 ≥` total, the loop never
exits, so no `c = n_probes` sentinel is ever returned. -/
theorem find_chunk_ix_c4_nontermination :
    find_chunk_ix 0 (U32 - 2) ciZero = none := by
  unfold find_chunk_ix
  rw [chunkLoop_diverges 0 ciZero (fun _ _ => le_refl 0) ((U32 - 2) + 1) 0
    (Or.inl (by norm_num))]
  rfl

/-- C9 counterexample: for `n_probes = 2^32 - 2` the binary-search loop
does not terminate (the uint32 midpoint wraps), refuting unconditional
termination. -/
theorem find_chunk_ix_c9_nontermination :
    find_chunk_reads 7 (U32 - 2) ciZero = none := by
  unfold find_chunk_reads
  rw [chunkLoop_diverges 7 ciZero (fun _ _ => by unfold ciZero; omega) ((U32 - 2) + 1) 0
    (Or.inl (by norm_num))]
  rfl

end RaftVerify

namespace RaftVerify

/-- Exact (unwrapped) inclusive running sums with carry `t`. -/
def runningSums (t : ℕ) : List ℕ → List ℕ
  | [] => []
  | a :: l => (t + a) :: runningSums (t + a) l

lemma calcChunkAux_eq (cs : ℕ → ℕ) :
    ∀ (l : List ℕ) (t : ℕ), t + (l.map cs).sum < U32 →
    calcChunkAux cs l t = (runningSums t (l.map cs), t + (l.map cs).sum) := by
  intro l
  induction l with
  | nil =>
    intro t ht
    simp [calcChunkAux, runningSums]
  | cons a l ih =>
    intro t ht
    simp only [List.map_cons, List.sum_cons] at ht
    have hc : (t + cs a) % U32 = t + cs a := Nat.mod_eq_of_lt (by omega)
    simp only [calcChunkAux, List.map_cons, runningSums]
    rw [hc, ih (t + cs a) (by omega)]
    refine Prod.ext rfl ?_
    simp only [List.sum_cons]
    omega

lemma runningSums_length (t : ℕ) (l : List ℕ) :
    (runningSums t l).length = l.length := by
  induction l generalizing t with
  | nil => rfl
  | cons a l ih => simp [runningSums, ih]

lemma runningSums_getD (l : List ℕ) :
    ∀ (t : ℕ) (i : ℕ), i < l.length →
      (runningSums t l).getD i 0 = t + (l.take (i + 1)).sum := by
  induction l with
  | nil =>
    intro t i hi
    simp at hi
  | cons a l ih =>
    intro t i hi
    match i with
    | 0 => simp [runningSums]
    | i + 1 =>
      show (runningSums (t + a) l).getD i 0 = _
      rw [ih (t + a) i (by simpa using hi)]
      simp only [List.take_succ_cons, List.sum_cons]
      omega

/-- C2 (amended): per query, provided the total probed size fits
`uint32_t`, the kernel writes at position `i` the inclusive running sum of
the probed cluster sizes `0..i` and stores the final running sum as the
query's sample count; the table has one entry per probe, its last entry
equals the total, and it is monotone non-decreasing; an empty probe list
yields an empty table and count 0. -/
theorem calc_chunk_indices_kernel_spec (cluster_sizes : ℕ → ℕ) (probe : List ℕ)
    (htot : (probe.map cluster_sizes).sum < U32) :
    (calc_chunk_indices_kernel cluster_sizes probe).2 = (probe.map cluster_sizes).sum ∧
    (calc_chunk_indices_kernel cluster_sizes probe).1.length = probe.length ∧
    (∀ i, i < probe.length →
      (calc_chunk_indices_kernel cluster_sizes probe).1.getD i 0 =
        ((probe.take (i + 1)).map cluster_sizes).sum) ∧
    (probe ≠ [] →
      (calc_chunk_indices_kernel cluster_sizes probe).1.getD (probe.length - 1) 0 =
        (probe.map cluster_sizes).sum) ∧
    (∀ i j, i ≤ j → j < probe.length →
      (calc_chunk_indices_kernel cluster_sizes probe).1.getD i 0 ≤
        (calc_chunk_indices_kernel cluster_sizes probe).1.getD j 0) ∧
    calc_chunk_indices_kernel cluster_sizes [] = ([], 0) := by
  have heq := calcChunkAux_eq cluster_sizes probe 0 (by omega)
  unfold calc_chunk_indices_kernel
  rw [heq]
  have hgetD : ∀ i, i < probe.length →
      (runningSums 0 (probe.map cluster_sizes)).getD i 0 =
        ((probe.take (i + 1)).map cluster_sizes).sum := by
    intro i hi
    rw [runningSums_getD (probe.map cluster_sizes) 0 i (by simpa using hi),
      List.map_take]
    omega
  refine ⟨by omega, ?_, hgetD, ?_, ?_, by simp [calc_chunk_indices_kernel, calcChunkAux]⟩
  · simp [runningSums_length]
  · intro hne
    have hlen : 0 < probe.length := List.length_pos.2 hne
    rw [hgetD (probe.length - 1) (by omega)]
    have he : probe.length - 1 + 1 = probe.length := by omega
    rw [he, List.take_length]
  · intro i j hij hj
    rw [hgetD i (by omega), hgetD j hj, List.map_take, List.map_take]
    exact sum_take_mono (probe.map cluster_sizes) (by omega)

/-- Witness for C2 at sizes `[3, 5, 2]`, probe list `[0, 1, 2]`. -/
theorem calc_chunk_indices_kernel_spec_witness :
    (([0, 1, 2].map (fun l => [3, 5, 2].getD l 0)).sum < U32) ∧
    ((calc_chunk_indices_kernel (fun l => [3, 5, 2].getD l 0) [0, 1, 2]).2 =
      (([0, 1, 2] : List ℕ).map (fun l => [3, 5, 2].getD l 0)).sum ∧
     (calc_chunk_indices_kernel (fun l => [3, 5, 2].getD l 0) [0, 1, 2]).1.length =
      ([0, 1, 2] : List ℕ).length ∧
     (∀ i, i < ([0, 1, 2] : List ℕ).length →
       (calc_chunk_indices_kernel (fun l => [3, 5, 2].getD l 0) [0, 1, 2]).1.getD i 0 =
         ((([0, 1, 2] : List ℕ).take (i + 1)).map (fun l => [3, 5, 2].getD l 0)).sum) ∧
     (([0, 1, 2] : List ℕ) ≠ [] →
       (calc_chunk_indices_kernel (fun l => [3, 5, 2].getD l 0) [0, 1, 2]).1.getD
           (([0, 1, 2] : List ℕ).length - 1) 0 =
         (([0, 1, 2] : List ℕ).map (fun l => [3, 5, 2].getD l 0)).sum) ∧
     (∀ i j, i ≤ j → j < ([0, 1, 2] : List ℕ).length →
       (calc_chunk_indices_kernel (fun l => [3, 5, 2].getD l 0) [0, 1, 2]).1.getD i 0 ≤
         (calc_chunk_indices_kernel (fun l => [3, 5, 2].getD l 0) [0, 1, 2]).1.getD j 0) ∧
     calc_chunk_indices_kernel (fun l => [3, 5, 2].getD l 0) [] = ([], 0)) :=
  ⟨by decide, calc_chunk_indices_kernel_spec (fun l => [3, 5, 2].getD l 0) [0, 1, 2]
    (by decide)⟩

/-- Two clusters of size `2^31 + 1`. -/
def bigSizes : ℕ → ℕ := fun _ => 2147483649

/-- C2 counterexample: probing two clusters of size `2^31 + 1` each makes
the inclusive sums wrap modulo `2^32`: the written table is
`[2147483649, 2]` — not the running sums, not monotone — and the stored
total `2` is not the sum of the probed sizes. -/
theorem calc_chunk_indices_kernel_overflow_counterexample :
    (calc_chunk_indices_kernel bigSizes [0, 1]).1 = [2147483649, 2] ∧
    ¬ ((calc_chunk_indices_kernel bigSizes [0, 1]).1.getD 0 0 ≤
       (calc_chunk_indices_kernel bigSizes [0, 1]).1.getD 1 0) ∧
    (calc_chunk_indices_kernel bigSizes [0, 1]).2 ≠
      (([0, 1] : List ℕ).map bigSizes).sum := by
  refine ⟨by decide, by decide, by decide⟩

end RaftVerify

namespace RaftVerify

lemma scanPartitionEps_eq {α : Type} (dist : α → α → ℚ) (q : α) (eps : ℚ)
    (p : BallPartition α) :
    scanPartitionEps dist q eps p =
      (p.members.filter (fun m => decide (dist q m.2 ≤ eps))).map (fun m => m.1) := by
  unfold scanPartitionEps
  induction p.members with
  | nil => rfl
  | cons m rest ih =>
    by_cases h : dist q m.2 ≤ eps
    · simp only [List.foldr_cons, if_pos h, List.filter_cons, decide_eq_true h,
        List.map_cons, ih]
      simp
    · simp only [List.foldr_cons, if_neg h, List.filter_cons,
        decide_eq_false h, ih]
      rfl

lemma rbc_eps_pass_acc {α : Type} (dist : α → α → ℚ) (q : α) (eps : ℚ) :
    ∀ (probe : List (BallPartition α)) (acc : List ℕ),
      probe.foldl (fun acc p => acc ++ scanPartitionEps dist q eps p) acc =
        acc ++ bruteForceEps dist q eps probe := by
  intro probe
  induction probe with
  | nil =>
    intro acc
    simp [bruteForceEps]
  | cons p rest ih =>
    intro acc
    simp only [List.foldl_cons]
    rw [ih]
    unfold bruteForceEps
    simp only [List.map_cons, List.flatten_cons, List.filter_append, List.map_append,
      List.append_assoc]
    rw [scanPartitionEps_eq]

/-- C6: the radius scanner scans every probed partition unconditionally and
classifies by `distance ≤ eps`: its emission equals the brute-force filter
of the concatenated probed members (even as lists, in probe then encounter
order), an identifier is emitted iff some probed member carries it within
`eps`, and the reported degree is the brute-force neighbor count. -/
theorem rbc_eps_pass_complete {α : Type} (dist : α → α → ℚ) (q : α) (eps : ℚ)
    (probe : List (BallPartition α)) :
    rbc_eps_pass dist q eps probe = bruteForceEps dist q eps probe ∧
    (∀ id, id ∈ rbc_eps_pass dist q eps probe ↔
      ∃ x, (id, x) ∈ (probe.map (fun p => p.members)).flatten ∧ dist q x ≤ eps) ∧
    rbc_eps_vd dist q eps probe = (bruteForceEps dist q eps probe).length := by
  have hmain : rbc_eps_pass dist q eps probe = bruteForceEps dist q eps probe := by
    unfold rbc_eps_pass
    rw [rbc_eps_pass_acc]
    rfl
  refine ⟨hmain, ?_, by unfold rbc_eps_vd; rw [hmain]⟩
  intro id
  rw [hmain]
  unfold bruteForceEps
  constructor
  · intro h
    rcases List.mem_map.1 h with ⟨m, hm, hid⟩
    rcases List.mem_filter.1 hm with ⟨hmem, hdist⟩
    exact ⟨m.2, by rw [← hid]; exact hmem, of_decide_eq_true hdist⟩
  · intro ⟨x, hmem, hdist⟩
    exact List.mem_map.2 ⟨(id, x),
      List.mem_filter.2 ⟨hmem, decide_eq_true hdist⟩, rfl⟩

/-! ### Order facts for top-k selection -/

lemma candLE_snd_le {a b : Cand} (h : candLE a b) : a.2 ≤ b.2 := by
  rcases h with h | ⟨h, _⟩
  · exact le_of_lt h
  · exact le_of_eq h

lemma sortCands_sorted (l : List Cand) : (sortCands l).Sorted candLE :=
  List.sorted_insertionSort candLE l

lemma sortCands_perm (l : List Cand) : (sortCands l).Perm l :=
  List.perm_insertionSort candLE l

lemma sortCands_length (l : List Cand) : (sortCands l).length = l.length :=
  List.length_insertionSort candLE l

lemma sortCands_congr {l₁ l₂ : List Cand} (h : l₁.Perm l₂) :
    sortCands l₁ = sortCands l₂ :=
  List.eq_of_perm_of_sorted ((sortCands_perm l₁).trans (h.trans (sortCands_perm l₂).symm))
    (sortCands_sorted l₁) (sortCands_sorted l₂)

lemma topk_congr {l₁ l₂ : List Cand} (k : ℕ) (h : l₁.Perm l₂) :
    topk k l₁ = topk k l₂ := by
  unfold topk
  rw [sortCands_congr h]

lemma sortCands_append_one (l : List Cand) (x : Cand) :
    sortCands (l ++ [x]) = List.orderedInsert candLE x (sortCands l) := by
  refine List.eq_of_perm_of_sorted ?_ (sortCands_sorted _)
    ((sortCands_sorted l).orderedInsert x _)
  have p1 := sortCands_perm (l ++ [x])
  have p2 := List.perm_append_singleton x l
  have p3 := (sortCands_perm l).symm.cons x
  have p4 := (List.perm_orderedInsert candLE x (sortCands l)).symm
  exact ((p1.trans p2).trans p3).trans p4

lemma sorted_getD_mono {L : List Cand} (hL : L.Sorted candLE) {i j : ℕ}
    (hij : i ≤ j) (hj : j < L.length) :
    candLE (L.getD i (0, 0)) (L.getD j (0, 0)) := by
  rw [List.getD_eq_getElem L (0, 0) (by omega), List.getD_eq_getElem L (0, 0) hj]
  rcases Nat.eq_or_lt_of_le hij with he | hlt
  · subst he
    exact IsRefl.refl _
  · exact List.Sorted.rel_get_of_lt hL (by exact hlt)

end RaftVerify

namespace RaftVerify

lemma orderedInsert_getD_dom (x : Cand) :
    ∀ (M : List Cand), M.Sorted candLE → ∀ j, j < M.length →
      candLE ((List.orderedInsert candLE x M).getD j (0, 0)) (M.getD j (0, 0)) := by
  intro M
  induction M with
  | nil =>
    intro _ j hj
    simp at hj
  | cons y ys ih =>
    intro hs j hj
    by_cases h : candLE x y
    · rw [List.orderedInsert_of_le candLE ys h]
      match j with
      | 0 => exact h
      | j + 1 =>
        show candLE ((y :: ys).getD j (0, 0)) (ys.getD j (0, 0))
        have hj2 : j + 1 < (y :: ys).length := hj
        have : (y :: ys).getD (j + 1) (0, 0) = ys.getD j (0, 0) := rfl
        rw [← this]
        exact sorted_getD_mono hs (by omega) hj2
    · have hoi : List.orderedInsert candLE x (y :: ys) =
          y :: List.orderedInsert candLE x ys := by
        simp [List.orderedInsert, if_neg h]
      rw [hoi]
      match j with
      | 0 => exact IsRefl.refl y
      | j + 1 =>
        show candLE ((List.orderedInsert candLE x ys).getD j (0, 0)) (ys.getD j (0, 0))
        exact ih (List.Sorted.of_cons hs) j (by simpa using hj)

lemma sortCands_append_dom :
    ∀ (R S : List Cand) (j : ℕ), j < S.length →
      candLE ((sortCands (S ++ R)).getD j (0, 0)) ((sortCands S).getD j (0, 0)) := by
  intro R
  induction R with
  | nil =>
    intro S j _
    rw [List.append_nil]
    exact IsRefl.refl _
  | cons x R ih =>
    intro S j hj
    rw [List.append_cons]
    have h1 := ih (S ++ [x]) j (by simp; omega)
    have h2 : candLE ((sortCands (S ++ [x])).getD j (0, 0)) ((sortCands S).getD j (0, 0)) := by
      rw [sortCands_append_one]
      exact orderedInsert_getD_dom x (sortCands S) (sortCands_sorted S) j
        (by rw [sortCands_length]; omega)
    exact IsTrans.trans _ _ _ h1 h2

lemma kthDist_eq_some {k : ℕ} {l : List Cand} {t : ℚ} :
    kthDist k l = some t ↔
      (k ≠ 0 ∧ k ≤ l.length ∧ ((sortCands l).getD (k - 1) (0, 0)).2 = t) := by
  unfold kthDist
  by_cases h : k = 0 ∨ l.length < k
  · rw [if_pos h]
    constructor
    · intro hc
      exact absurd hc (by simp)
    · intro ⟨h1, h2, _⟩
      omega
  · rw [if_neg h]
    push_neg at h
    simp only [Option.some.injEq]
    constructor
    · intro he
      exact ⟨h.1, h.2, he⟩
    · intro ⟨_, _, he⟩
      exact he

lemma kthDist_mono_append {k : ℕ} {S : List Cand} {t : ℚ}
    (h : kthDist k S = some t) (R : List Cand) :
    ∃ t2, kthDist k (S ++ R) = some t2 ∧ t2 ≤ t := by
  obtain ⟨hk0, hkle, hval⟩ := kthDist_eq_some.1 h
  refine ⟨((sortCands (S ++ R)).getD (k - 1) (0, 0)).2, ?_, ?_⟩
  · exact kthDist_eq_some.2 ⟨hk0, by simp; omega, rfl⟩
  · rw [← hval]
    exact candLE_snd_le (sortCands_append_dom R S (k - 1) (by omega))

lemma orderedInsert_take_of_big {x : Cand} :
    ∀ (M : List Cand) (k : ℕ), M.Sorted candLE → k ≤ M.length →
      (∀ j, j < k → (M.getD j (0, 0)).2 < x.2) →
      (List.orderedInsert candLE x M).take k = M.take k := by
  intro M
  induction M with
  | nil =>
    intro k _ hk _
    have hk0 : k = 0 := by simpa using hk
    subst hk0
    rfl
  | cons y ys ih =>
    intro k hs hk hstr
    match k with
    | 0 => rfl
    | k + 1 =>
      have hy : y.2 < x.2 := hstr 0 (by omega)
      have hno : ¬ candLE x y := by
        intro hc
        rcases hc with h | ⟨h, _⟩
        · exact absurd hy (by exact asymm h)
        · exact absurd hy (h ▸ lt_irrefl _)
      have hoi : List.orderedInsert candLE x (y :: ys) =
          y :: List.orderedInsert candLE x ys := by
        simp [List.orderedInsert, if_neg hno]
      rw [hoi, List.take_succ_cons, List.take_succ_cons]
      rw [ih k (List.Sorted.of_cons hs) (by simpa using hk)
        (fun j hj => hstr (j + 1) (by omega))]

lemma topk_extend {k : ℕ} :
    ∀ (R S : List Cand) (t : ℚ), kthDist k S = some t →
      ((S ++ R).map Prod.snd).Nodup →
      (∀ x ∈ R, t ≤ x.2) →
      topk k (S ++ R) = topk k S := by
  intro R
  induction R with
  | nil =>
    intro S t _ _ _
    rw [List.append_nil]
  | cons x R ih =>
    intro S t hk hnd hbound
    obtain ⟨hk0, hkle, hval⟩ := kthDist_eq_some.1 hk
    obtain ⟨t2, hk2, ht2⟩ := kthDist_mono_append hk [x]
    have hstep : topk k (S ++ [x]) = topk k S := by
      unfold topk
      rw [sortCands_append_one]
      apply orderedInsert_take_of_big (sortCands S) k (sortCands_sorted S)
        (by rw [sortCands_length]; omega)
      intro j hj
      have hjle : ((sortCands S).getD j (0, 0)).2 ≤ t := by
        rw [← hval]
        exact candLE_snd_le (sorted_getD_mono (sortCands_sorted S) (by omega)
          (by rw [sortCands_length]; omega))
      have htx : t ≤ x.2 := hbound x (by simp)
      have hne : ((sortCands S).getD j (0, 0)).2 ≠ x.2 := by
        have hjlen : j < (sortCands S).length := by rw [sortCands_length]; omega
        have hmem : (sortCands S).getD j (0, 0) ∈ S := by
          rw [List.getD_eq_getElem _ _ hjlen]
          exact (sortCands_perm S).mem_iff.1 (List.getElem_mem hjlen)
        have hmem2 : ((sortCands S).getD j (0, 0)).2 ∈ S.map Prod.snd :=
          List.mem_map.2 ⟨_, hmem, rfl⟩
        have hxm : x.2 ∈ (x :: R).map Prod.snd := by simp
        have hdisj : List.Disjoint (S.map Prod.snd) ((x :: R).map Prod.snd) := by
          apply List.disjoint_of_nodup_append
          rw [← List.map_append]
          exact hnd
        intro hcontra
        exact hdisj hmem2 (hcontra ▸ hxm)
      exact lt_of_le_of_ne (le_trans hjle htx) hne
    rw [List.append_cons]
    rw [ih (S ++ [x]) t2 hk2 (by rw [← List.append_cons]; exact hnd) ?_, hstep]
    intro y hy
    exact le_trans ht2 (hbound y (by simp [hy]))
  
end RaftVerify

namespace RaftVerify

/-- One step of the scan skeleton, named for reasoning. -/
def scanStep {α : Type} (dist : α → α → ℚ) (q : α)
    (parts : List (BallPartition α)) (keep : List Cand → BallPartition α → Bool)
    (st : ScanState) (i : ℕ) : ScanState :=
  match parts[i]? with
  | none => st
  | some p =>
    if i ∈ st.scanned then st
    else if keep st.cands p then
      { cands := st.cands ++ candidatesOf dist q p, scanned := i :: st.scanned }
    else st

lemma scanFold_eq_foldl {α : Type} (dist : α → α → ℚ) (q : α)
    (parts : List (BallPartition α)) (keep : List Cand → BallPartition α → Bool)
    (st : ScanState) (idxs : List ℕ) :
    scanFold dist q parts keep st idxs =
      idxs.foldl (scanStep dist q parts keep) st := rfl

lemma scanStep_cands_append {α : Type} (dist : α → α → ℚ) (q : α)
    (parts : List (BallPartition α)) (keep : List Cand → BallPartition α → Bool)
    (st : ScanState) (i : ℕ) :
    ∃ rest, (scanStep dist q parts keep st i).cands = st.cands ++ rest := by
  unfold scanStep
  rcases parts[i]? with _ | p <;> dsimp only
  · exact ⟨[], by simp⟩
  · by_cases h1 : i ∈ st.scanned
    · rw [if_pos h1]
      exact ⟨[], by simp⟩
    · rw [if_neg h1]
      by_cases h2 : keep st.cands p
      · rw [if_pos h2]
        exact ⟨candidatesOf dist q p, rfl⟩
      · rw [if_neg h2]
        exact ⟨[], by simp⟩

lemma scanFold_cands_append {α : Type} (dist : α → α → ℚ) (q : α)
    (parts : List (BallPartition α)) (keep : List Cand → BallPartition α → Bool) :
    ∀ (idxs : List ℕ) (st : ScanState),
      ∃ rest, (scanFold dist q parts keep st idxs).cands = st.cands ++ rest := by
  intro idxs
  induction idxs with
  | nil =>
    intro st
    exact ⟨[], by simp [scanFold]⟩
  | cons i idxs ih =>
    intro st
    rw [scanFold_eq_foldl, List.foldl_cons, ← scanFold_eq_foldl]
    obtain ⟨r1, h1⟩ := scanStep_cands_append dist q parts keep st i
    obtain ⟨r2, h2⟩ := ih (scanStep dist q parts keep st i)
    exact ⟨r1 ++ r2, by rw [h2, h1, List.append_assoc]⟩

lemma scanFold_scanned_mono {α : Type} (dist : α → α → ℚ) (q : α)
    (parts : List (BallPartition α)) (keep : List Cand → BallPartition α → Bool) :
    ∀ (idxs : List ℕ) (st : ScanState) (i : ℕ), i ∈ st.scanned →
      i ∈ (scanFold dist q parts keep st idxs).scanned := by
  intro idxs
  induction idxs with
  | nil =>
    intro st i hi
    exact hi
  | cons j idxs ih =>
    intro st i hi
    rw [scanFold_eq_foldl, List.foldl_cons, ← scanFold_eq_foldl]
    apply ih
    unfold scanStep
    rcases parts[j]? with _ | p <;> dsimp only
    · exact hi
    · by_cases h1 : j ∈ st.scanned
      · rw [if_pos h1]
        exact hi
      · rw [if_neg h1]
        by_cases h2 : keep st.cands p
        · rw [if_pos h2]
          exact List.mem_cons_of_mem j hi
        · rw [if_neg h2]
          exact hi

/-- Well-formedness of a scan state: the candidate buffer is exactly (up to
order) the concatenation of the scanned partitions' candidates, each
partition scanned at most once, all indices valid. -/
def ScanWF {α : Type} (dist : α → α → ℚ) (q : α)
    (parts : List (BallPartition α)) (st : ScanState) : Prop :=
  st.cands.Perm ((st.scanned.map (candsOfIdx dist q parts)).flatten) ∧
  st.scanned.Nodup ∧ (∀ i ∈ st.scanned, i < parts.length)

lemma scanStep_WF {α : Type} {dist : α → α → ℚ} {q : α}
    {parts : List (BallPartition α)} {keep : List Cand → BallPartition α → Bool}
    {st : ScanState} (hwf : ScanWF dist q parts st) (i : ℕ) :
    ScanWF dist q parts (scanStep dist q parts keep st i) := by
  obtain ⟨hperm, hnd, hbound⟩ := hwf
  unfold scanStep
  rcases hp : parts[i]? with _ | p <;> dsimp only
  · exact ⟨hperm, hnd, hbound⟩
  · by_cases h1 : i ∈ st.scanned
    · rw [if_pos h1]
      exact ⟨hperm, hnd, hbound⟩
    · rw [if_neg h1]
      by_cases h2 : keep st.cands p
      · rw [if_pos h2]
        refine ⟨?_, ?_, ?_⟩
        · show (st.cands ++ candidatesOf dist q p).Perm
            (((i :: st.scanned).map (candsOfIdx dist q parts)).flatten)
          have hci : candsOfIdx dist q parts i = candidatesOf dist q p := by
            unfold candsOfIdx
            rw [hp]
          rw [List.map_cons, List.flatten_cons, hci]
          have hstep := hperm.append (List.Perm.refl (candidatesOf dist q p))
          exact hstep.trans (List.perm_append_comm)
        · exact List.Nodup.cons h1 hnd
        · intro j hj
          rcases List.mem_cons.1 hj with h | h
          · subst h
            exact (List.getElem?_eq_some.1 hp).1
          · exact hbound j h
      · rw [if_neg h2]
        exact ⟨hperm, hnd, hbound⟩

lemma scanFold_WF {α : Type} {dist : α → α → ℚ} {q : α}
    {parts : List (BallPartition α)} {keep : List Cand → BallPartition α → Bool} :
    ∀ (idxs : List ℕ) (st : ScanState), ScanWF dist q parts st →
      ScanWF dist q parts (scanFold dist q parts keep st idxs) := by
  intro idxs
  induction idxs with
  | nil =>
    intro st hwf
    exact hwf
  | cons i idxs ih =>
    intro st hwf
    rw [scanFold_eq_foldl, List.foldl_cons, ← scanFold_eq_foldl]
    exact ih _ (scanStep_WF hwf i)

end RaftVerify

namespace RaftVerify

/-- After pass two folds over any index list, every listed partition is
either fully scanned or all its members sit at distance at least the final
k-th best (when the latter exists): the partition-level skip of the signed
bound is sound and survives later buffer growth. -/
lemma scanFold_keepTwo_post {α : Type} (dist : α → α → ℚ) (q : α)
    (parts : List (BallPartition α)) (k : ℕ)
    (htri : ∀ a b c, dist a c ≤ dist a b + dist b c)
    (hsymm : ∀ a b, dist a b = dist b a)
    (hrad : ∀ p ∈ parts, ∀ m ∈ p.members, dist p.landmark m.2 ≤ p.radius) :
    ∀ (idxs : List ℕ) (st : ScanState) (i : ℕ), i ∈ idxs →
      ∀ p, parts[i]? = some p →
      (i ∈ (scanFold dist q parts (keepTwo dist q k) st idxs).scanned ∨
       (∃ t, kthDist k (scanFold dist q parts (keepTwo dist q k) st idxs).cands = some t ∧
         ∀ m ∈ p.members, t ≤ dist q m.2)) := by
  intro idxs
  induction idxs with
  | nil =>
    intro st i hi
    simp at hi
  | cons i0 rest ih =>
    intro st i hi p hp
    rw [scanFold_eq_foldl, List.foldl_cons, ← scanFold_eq_foldl]
    rcases List.mem_cons.1 hi with he | htail
    · subst he
      have hstep : scanStep dist q parts (keepTwo dist q k) st i =
          (if i ∈ st.scanned then st
           else if keepTwo dist q k st.cands p then
             { cands := st.cands ++ candidatesOf dist q p, scanned := i :: st.scanned }
           else st) := by
        unfold scanStep
        rw [hp]
      by_cases h1 : i ∈ st.scanned
      · left
        rw [hstep, if_pos h1]
        exact scanFold_scanned_mono dist q parts (keepTwo dist q k) rest st i h1
      · by_cases h2 : keepTwo dist q k st.cands p
        · left
          rw [hstep, if_neg h1, if_pos h2]
          exact scanFold_scanned_mono dist q parts (keepTwo dist q k) rest _ i
            (List.mem_cons_self i st.scanned)
        · right
          rw [hstep, if_neg h1, if_neg h2]
          rcases hkd : kthDist k st.cands with _ | t0
          · exfalso
            apply h2
            unfold keepTwo
            rw [hkd]
          · have hbnd : ¬ (dist q p.landmark - p.radius < t0) := by
              intro hc
              apply h2
              unfold keepTwo
              rw [hkd]
              simpa using hc
            obtain ⟨rest2, hr2⟩ := scanFold_cands_append dist q parts
              (keepTwo dist q k) rest st
            obtain ⟨t, hkt, htle⟩ := kthDist_mono_append hkd rest2
            refine ⟨t, by rw [hr2]; exact hkt, ?_⟩
            intro m hm
            have hmem : p ∈ parts := List.getElem?_mem hp
            have hr := hrad p hmem m hm
            have ht := htri q p.landmark m.2
            have hs := hsymm m.2 p.landmark
            have htr2 := htri q m.2 p.landmark
            have : dist q p.landmark - p.radius ≤ dist q m.2 := by
              have h3 : dist q p.landmark ≤ dist q m.2 + dist m.2 p.landmark :=
                htri q m.2 p.landmark
              have h4 : dist m.2 p.landmark = dist p.landmark m.2 := hsymm m.2 p.landmark
              linarith
            linarith [not_lt.1 hbnd]
    · exact ih (scanStep dist q parts (keepTwo dist q k) st i0) i htail p hp

end RaftVerify

namespace RaftVerify

lemma allCandidates_eq_range {α : Type} (dist : α → α → ℚ) (q : α)
    (parts : List (BallPartition α)) :
    allCandidates dist q parts =
      ((List.range parts.length).map (candsOfIdx dist q parts)).flatten := by
  unfold allCandidates
  induction parts with
  | nil => rfl
  | cons p parts ih =>
    rw [List.length_cons, List.range_succ_eq_map]
    simp only [List.map_cons, List.flatten_cons, List.map_map]
    have hhead : candsOfIdx dist q (p :: parts) 0 = candidatesOf dist q p := by
      unfold candsOfIdx
      rw [List.getElem?_cons_zero]
    have hcomp : (candsOfIdx dist q (p :: parts)) ∘ Nat.succ = candsOfIdx dist q parts := by
      funext i
      show candsOfIdx dist q (p :: parts) (i + 1) = candsOfIdx dist q parts i
      unfold candsOfIdx
      rw [List.getElem?_cons_succ]
    rw [hhead, hcomp, ih]

/-- C5 (amended): with the signed pass-two bound
`distance(query, landmark) - radius` and pairwise-distinct query-to-point
distances, the two-pass landmark scan — pass one over the probe list with
any slack weight `w ≥ 1`, then pass two over all partitions with no slack —
returns exactly the brute-force k nearest neighbors, both as the selected
(identifier, distance) list and as an identifier set. -/
theorem rbc_two_pass_exact {α : Type} (dist : α → α → ℚ) (q : α) (w : ℚ) (k : ℕ)
    (parts : List (BallPartition α)) (probe : List ℕ)
    (htri : ∀ a b c, dist a c ≤ dist a b + dist b c)
    (hsymm : ∀ a b, dist a b = dist b a)
    (hrad : ∀ p ∈ parts, ∀ m ∈ p.members, dist p.landmark m.2 ≤ p.radius)
    (_hw : 1 ≤ w)
    (hdistinct : ((allCandidates dist q parts).map Prod.snd).Nodup) :
    rbc_two_pass dist q w k parts probe = bruteForceKnn dist q k parts ∧
    ((rbc_two_pass dist q w k parts probe).map Prod.fst).toFinset =
      ((bruteForceKnn dist q k parts).map Prod.fst).toFinset := by
  have hwf0 : ScanWF dist q parts ⟨[], []⟩ := by
    refine ⟨by simp, List.nodup_nil, by simp⟩
  have hwf1 : ScanWF dist q parts (rbc_low_dim_pass_one dist q w k parts probe) :=
    scanFold_WF probe ⟨[], []⟩ hwf0
  have hwf : ScanWF dist q parts
      (rbc_low_dim_pass_two dist q k parts
        (rbc_low_dim_pass_one dist q w k parts probe)) :=
    scanFold_WF (List.range parts.length) _ hwf1
  obtain ⟨hperm, hnd, hbound⟩ := hwf
  have hpost := scanFold_keepTwo_post dist q parts k
    htri hsymm hrad (List.range parts.length)
    (rbc_low_dim_pass_one dist q w k parts probe)
  have hmain : topk k (rbc_low_dim_pass_two dist q k parts
      (rbc_low_dim_pass_one dist q w k parts probe)).cands =
      topk k (allCandidates dist q parts) := by
    have hscperm : (rbc_low_dim_pass_two dist q k parts
        (rbc_low_dim_pass_one dist q w k parts probe)).scanned.Perm
        ((List.range parts.length).filter
          (fun i => decide (i ∈ (rbc_low_dim_pass_two dist q k parts
            (rbc_low_dim_pass_one dist q w k parts probe)).scanned))) := by
      rw [List.perm_ext_iff_of_nodup hnd (List.Nodup.filter _ (List.nodup_range _))]
      intro a
      simp only [List.mem_filter, List.mem_range, decide_eq_true_eq]
      constructor
      · intro ha
        exact ⟨hbound a ha, ha⟩
      · intro ⟨_, ha⟩
        exact ha
    have hTperm : (allCandidates dist q parts).Perm
        ((rbc_low_dim_pass_two dist q k parts
          (rbc_low_dim_pass_one dist q w k parts probe)).cands ++
         ((((List.range parts.length).filter
            (fun i => !decide (i ∈ (rbc_low_dim_pass_two dist q k parts
              (rbc_low_dim_pass_one dist q w k parts probe)).scanned))).map
            (candsOfIdx dist q parts)).flatten)) := by
      rw [allCandidates_eq_range]
      have hfilters := List.filter_append_perm
        (fun i => decide (i ∈ (rbc_low_dim_pass_two dist q k parts
          (rbc_low_dim_pass_one dist q w k parts probe)).scanned))
        (List.range parts.length)
      have h1 := ((hfilters.symm).map (candsOfIdx dist q parts)).flatten
      rw [List.map_append, List.flatten_append] at h1
      have h2 := hperm.trans ((hscperm.map (candsOfIdx dist q parts)).flatten)
      exact h1.trans (List.Perm.append h2.symm (List.Perm.refl _))
    rcases hkd : kthDist k (rbc_low_dim_pass_two dist q k parts
        (rbc_low_dim_pass_one dist q w k parts probe)).cands with _ | t
    · have hall : ∀ i ∈ List.range parts.length,
          i ∈ (rbc_low_dim_pass_two dist q k parts
            (rbc_low_dim_pass_one dist q w k parts probe)).scanned := by
        intro i hi
        have hlt : i < parts.length := List.mem_range.1 hi
        have hp : parts[i]? = some parts[i] := List.getElem?_eq_getElem hlt
        rcases hpost i hi (parts[i]) hp with h | ⟨t', ht', _⟩
        · exact h
        · rw [show (scanFold dist q parts (keepTwo dist q k)
              (rbc_low_dim_pass_one dist q w k parts probe)
              (List.range parts.length)) = rbc_low_dim_pass_two dist q k parts
              (rbc_low_dim_pass_one dist q w k parts probe) from rfl] at ht'
          rw [hkd] at ht'
          exact absurd ht' (by simp)
      have hout : (List.range parts.length).filter
          (fun i => !decide (i ∈ (rbc_low_dim_pass_two dist q k parts
            (rbc_low_dim_pass_one dist q w k parts probe)).scanned)) = [] := by
        rw [List.filter_eq_nil_iff]
        intro a ha
        simp [hall a ha]
      rw [hout] at hTperm
      simp only [List.map_nil, List.flatten_nil, List.append_nil] at hTperm
      exact (topk_congr k hTperm).symm
    · have hboundR : ∀ x ∈ ((((List.range parts.length).filter
          (fun i => !decide (i ∈ (rbc_low_dim_pass_two dist q k parts
            (rbc_low_dim_pass_one dist q w k parts probe)).scanned))).map
          (candsOfIdx dist q parts)).flatten), t ≤ x.2 := by
        intro x hx
        rcases List.mem_flatten.1 hx with ⟨l, hl, hxl⟩
        rcases List.mem_map.1 hl with ⟨i, hif, rfl⟩
        rcases List.mem_filter.1 hif with ⟨hir, hins⟩
        have hlt : i < parts.length := List.mem_range.1 hir
        have hp : parts[i]? = some parts[i] := List.getElem?_eq_getElem hlt
        have hnotin : i ∉ (rbc_low_dim_pass_two dist q k parts
            (rbc_low_dim_pass_one dist q w k parts probe)).scanned := by
          simpa using hins
        rcases hpost i hir (parts[i]) hp with h | ⟨t', ht', hb⟩
        · exact absurd h hnotin
        · have ht'2 : kthDist k (rbc_low_dim_pass_two dist q k parts
              (rbc_low_dim_pass_one dist q w k parts probe)).cands = some t' := ht'
          rw [hkd] at ht'2
          have htt : t' = t := by
            injection ht'2.symm
          subst htt
          unfold candsOfIdx at hxl
          rw [hp] at hxl
          rcases List.mem_map.1 hxl with ⟨m, hm, rfl⟩
          exact hb m hm
      have hnd2 := (hTperm.map Prod.snd).nodup ?_
      · rw [List.map_append] at hnd2
        have := topk_extend _ _ t hkd (by rw [← List.map_append] at hnd2; exact hnd2)
          hboundR
        rw [← this]
        exact (topk_congr k hTperm).symm
      · exact hdistinct
  constructor
  · exact hmain
  · rw [show rbc_two_pass dist q w k parts probe = topk k (rbc_low_dim_pass_two dist q
      k parts (rbc_low_dim_pass_one dist q w k parts probe)).cands from rfl, hmain]
    rfl

end RaftVerify

namespace RaftVerify

/-- One-dimensional rational test metric. -/
def distQ : ℚ → ℚ → ℚ := fun x y => |x - y|

/-- Two landmark partitions for the pass-two bound counterexample: partition
0 holds the point 3 (its landmark), partition 1 has landmark 6, radius 10
and holds the point 1 (well inside the ball: `|6 - 1| = 5 ≤ 10`). -/
def exParts : List (BallPartition ℚ) := [⟨3, 0, [(0, 3)]⟩, ⟨6, 10, [(1, 1)]⟩]

/-- The counterexample instance satisfies every premise of the exactness
claim: `distQ` is a symmetric metric obeying the triangle inequality, every
member lies within its partition's radius, and the query-to-point distances
(3 and 1 for query 0) are pairwise distinct. -/
lemma exParts_claim_premises :
    (∀ a b c : ℚ, distQ a c ≤ distQ a b + distQ b c) ∧
    (∀ a b : ℚ, distQ a b = distQ b a) ∧
    (∀ p ∈ exParts, ∀ m ∈ p.members, distQ p.landmark m.2 ≤ p.radius) ∧
    ((allCandidates distQ 0 exParts).map Prod.snd).Nodup := by
  refine ⟨fun a b c => abs_sub_le a b c, fun a b => abs_sub_comm a b, ?_, ?_⟩
  · intro p hp m hm
    simp only [exParts, List.mem_cons, List.not_mem_nil, or_false] at hp
    rcases hp with rfl | rfl <;> simp only [List.mem_cons, List.not_mem_nil,
      or_false] at hm <;> subst hm <;> norm_num [distQ]
  · norm_num [allCandidates, candidatesOf, exParts, distQ]

/-- C5 counterexample: running the two-pass scan exactly as the spec words
it — pass one with weight 1 over the probe list `[0, 1]`, pass two with the
absolute-value bound `|distance(query, landmark) - radius|` — for query 0
and k = 1 keeps the candidate 0 at distance 3, while the true nearest
neighbor is identifier 1 at distance 1: pass one skips partition 1
(`6 > 1 * 3`) and pass two skips it again (`|6 - 10| = 4 ≥ 3`), although it
contains a closer point.  The claimed identifier-set equality with brute
force fails. -/
theorem rbc_two_pass_abs_counterexample :
    rbc_two_pass_abs distQ 0 1 1 exParts [0, 1] = [(0, 3)] ∧
    bruteForceKnn distQ 0 1 exParts = [(1, 1)] ∧
    ((rbc_two_pass_abs distQ 0 1 1 exParts [0, 1]).map Prod.fst).toFinset ≠
      ((bruteForceKnn distQ 0 1 exParts).map Prod.fst).toFinset := by
  have h1 : rbc_two_pass_abs distQ 0 1 1 exParts [0, 1] = [(0, 3)] := by
    norm_num [rbc_two_pass_abs, rbc_low_dim_pass_two_abs, rbc_low_dim_pass_one, scanFold,
      keepOne, keepTwoAbs, kthDist, sortCands, topk, candidatesOf, exParts, distQ, candLE,
      List.insertionSort, List.orderedInsert, List.range_succ]
  have h2 : bruteForceKnn distQ 0 1 exParts = [(1, 1)] := by
    norm_num [bruteForceKnn, allCandidates, candidatesOf, topk, sortCands, exParts, distQ,
      candLE, List.insertionSort, List.orderedInsert]
  refine ⟨h1, h2, ?_⟩
  rw [h1, h2]
  decide

/-- Witness for the amended C5 at the same instance: with the signed bound
pass two does re-scan partition 1 (`6 - 10 = -4 < 3`) and the scan returns
the true nearest neighbor. -/
theorem rbc_two_pass_exact_witness :
    ((∀ a b c : ℚ, distQ a c ≤ distQ a b + distQ b c) ∧
     (∀ a b : ℚ, distQ a b = distQ b a) ∧
     (∀ p ∈ exParts, ∀ m ∈ p.members, distQ p.landmark m.2 ≤ p.radius) ∧
     (1 : ℚ) ≤ 1 ∧
     ((allCandidates distQ 0 exParts).map Prod.snd).Nodup) ∧
    (rbc_two_pass distQ 0 1 1 exParts [0, 1] = bruteForceKnn distQ 0 1 exParts ∧
     ((rbc_two_pass distQ 0 1 1 exParts [0, 1]).map Prod.fst).toFinset =
       ((bruteForceKnn distQ 0 1 exParts).map Prod.fst).toFinset) := by
  obtain ⟨htri, hsymm, hrad, hnd⟩ := exParts_claim_premises
  exact ⟨⟨htri, hsymm, hrad, by norm_num, hnd⟩,
    rbc_two_pass_exact distQ 0 1 1 exParts [0, 1] htri hsymm hrad (by norm_num) hnd⟩

end RaftVerify
